import Mathlib

/-!
# Schema-directed document walker (`validator/walk.go`)

A shallow embedding of the traversal engine `Walk` and of the walker
methods it is made of.  Callbacks are closures whose only observable
effect is that they are invoked with certain arguments, so the embedding
records every invocation as an `Event` and a walk produces the ordered
list of events (the callback trace).  The walker's only mutable field,
`validatedFragmentSpreads`, is passed explicitly.
-/

namespace validator

/-! ## Data model -/

/-- Modelled from the spec: the `Type` interface of the parser package
(named, list and non-null type references); the declaration is not part of
the walker source. -/
inductive GType where
  | NamedType (name : String)
  | ListType (elem : GType)
  | NonNullType (elem : GType)

/-- Modelled from the spec: `Type.Name()`, the type-name extraction that
unwraps list and non-null wrappers down to the innermost named type. -/
def GType.Name : GType → String
  | .NamedType n => n
  | .ListType t => t.Name
  | .NonNullType t => t.Name

/-- Modelled from the spec: the polymorphic `Value` node (scalar,
variable reference, list, object); an object value is an ordered sequence
of (field name, nested value) pairs. -/
inductive Value where
  | ScalarValue (raw : String)
  | Variable (name : String)
  | ListValue (elems : List Value)
  | ObjectValue (fields : List (String × Value))

/-- Modelled from the spec: `FieldDefinition`, used by the walker both for
field definitions and for argument definitions (`Arguments` is a list of
the same kind of record).  `Typ` is the declared type (the Go field
`Type`). -/
inductive FieldDefinition where
  | mk (Name : String) (Arguments : List FieldDefinition) (Typ : GType)

def FieldDefinition.Name : FieldDefinition → String
  | .mk n _ _ => n

def FieldDefinition.Arguments : FieldDefinition → List FieldDefinition
  | .mk _ a _ => a

def FieldDefinition.Typ : FieldDefinition → GType
  | .mk _ _ t => t

/-- Modelled from the spec: `FieldList.ForName`, lookup of the first entry
with the given name, absent when there is none. -/
def FieldList.ForName (l : List FieldDefinition) (name : String) : Option FieldDefinition :=
  l.find? (fun f => f.Name == name)

/-- Modelled from the spec: a schema type definition with its fields. -/
structure Definition where
  Name : String
  Fields : List FieldDefinition

/-- Modelled from the spec: `Definition.Field`, the field-by-name lookup
of a type definition. -/
def Definition.Field (d : Definition) (name : String) : Option FieldDefinition :=
  FieldList.ForName d.Fields name

/-- Modelled from the spec: a directive definition with the definitions
of its arguments. -/
structure DirectiveDefinition where
  Name : String
  Arguments : List FieldDefinition

/-- Modelled from the spec: the directive locations the walker passes to
directive callbacks; `Unset` is the zero value of the location type. -/
inductive DirectiveLocation where
  | Unset
  | LocationQuery
  | LocationMutation
  | LocationSubscription
  | LocationField
  | LocationFragmentDefinition
  | LocationFragmentSpread
  | LocationInlineFragment
  deriving DecidableEq, Repr

/-- Modelled from the spec: the schema, with its name-indexed lookup
tables (a miss is `none`) and its three optional root definitions. -/
structure Schema where
  Types : String → Option Definition
  Directives : String → Option DirectiveDefinition
  Query : Option Definition
  Mutation : Option Definition
  Subscription : Option Definition

structure Argument where
  Name : String
  Value : Value

structure Directive where
  Name : String
  Arguments : List Argument

/-- Modelled from the spec: the `Selection` interface.  `Field`,
`InlineFragment` and `FragmentSpread` are the three variants the walker
knows; `Unsupported` stands for any other implementation of the
interface.  A type condition is a named type, given by its name (empty
when omitted). -/
inductive Selection where
  | Field (Name : String) (Arguments : List Argument) (Directives : List Directive)
      (SelectionSet : List Selection)
  | InlineFragment (TypeCondition : String) (Directives : List Directive)
      (SelectionSet : List Selection)
  | FragmentSpread (Name : String) (Directives : List Directive)
  | Unsupported

structure VariableDefinition where
  Variable : String
  Typ : GType
  DefaultValue : Option Value

/-- Modelled from the spec: an operation definition; `Operation` is the
operation kind, a string that is empty when the kind is omitted. -/
structure OperationDefinition where
  Operation : String
  Name : String
  VariableDefinitions : List VariableDefinition
  Directives : List Directive
  SelectionSet : List Selection

structure FragmentDefinition where
  Name : String
  TypeCondition : String
  Directives : List Directive
  SelectionSet : List Selection

structure QueryDocument where
  Operations : List OperationDefinition
  Fragments : List FragmentDefinition

/-- Modelled from the spec: `QueryDocument.GetFragment`, the
fragment-by-name lookup of the document (first match, absent if
undefined). -/
def QueryDocument.GetFragment (d : QueryDocument) (name : String) : Option FragmentDefinition :=
  d.Fragments.find? (fun o => o.Name == name)

/-- Modelled from the spec: the operation kinds. -/
def Query : String := "query"
def Mutation : String := "mutation"
def Subscription : String := "subscription"

/-! ## Observer registry -/

/-- The registry `Events`: one ordered list of callbacks per node kind.
The type `κ` of callbacks is left abstract. -/
structure Events (κ : Type) where
  operationVisitor : List κ := []
  operationLeaveVisitor : List κ := []
  field : List κ := []
  fragment : List κ := []
  inlineFragment : List κ := []
  fragmentSpread : List κ := []
  directive : List κ := []
  directiveList : List κ := []
  argument : List κ := []
  value : List κ := []
  variableVisitor : List κ := []

/-- One callback invocation: which callback ran, and with which
arguments (the walker handle, common to all, is left out). -/
inductive Event (κ : Type) where
  | operation (v : κ) (operation : OperationDefinition)
  | operationLeave (v : κ) (operation : OperationDefinition)
  | field (v : κ) (parentDef : Option Definition) (fieldDef : Option FieldDefinition)
      (field : Selection)
  | fragment (v : κ) (parentDef : Option Definition) (fragment : FragmentDefinition)
  | inlineFragment (v : κ) (parentDef : Option Definition) (inlineFragment : Selection)
  | fragmentSpread (v : κ) (parentDef : Option Definition)
      (fragmentDef : Option FragmentDefinition) (fragmentSpread : Selection)
  | directive (v : κ) (parentDef : Option Definition) (directiveDef : Option DirectiveDefinition)
      (directive : Directive) (location : DirectiveLocation)
  | directiveList (v : κ) (parentDef : Option Definition) (directives : List Directive)
      (location : DirectiveLocation)
  | argument (v : κ) (arg : Argument)
  | value (v : κ) (valueType : Option GType) (defn : Option Definition) (value : Value)
  | variableDef (v : κ) (valueType : GType) (defn : Option Definition)
      (varDef : VariableDefinition)

/-! ## Walker -/

variable {κ : Type}

/-- Result of a walk that may reach an unsupported selection.  `ok` carries
the callback trace and the final `validatedFragmentSpreads` (the names set
to `true`, most recent first); `panic` carries the trace up to the point
of the `panic(...)`; `outOfFuel` says the recursion allowance of the
embedding was used up (never the case with the allowance `Walk` gives,
see `walkSelection_fuel`). -/
inductive Res (κ : Type) where
  | ok (trace : List (Event κ)) (validatedFragmentSpreads : List String)
  | panic (trace : List (Event κ))
  | outOfFuel

/-- The result `r`, with the events `t` having happened before it. -/
def Res.after (t : List (Event κ)) : Res κ → Res κ
  | .ok t1 seen => .ok (t ++ t1) seen
  | .panic t1 => .panic (t ++ t1)
  | .outOfFuel => .outOfFuel

/-- Sequencing: `k` runs from the state `r` ends in, unless `r` did not
complete. -/
def Res.andThen (r : Res κ) (k : List String → Res κ) : Res κ :=
  match r with
  | .ok t seen => (k seen).after t
  | .panic t => .panic t
  | .outOfFuel => .outOfFuel

mutual
/-- `Walker.walkValue`. -/
def walkValue (schema : Schema) (obs : Events κ) : Option GType → Value → List (Event κ)
  | valueType, .ObjectValue fields =>
    obs.value.map (fun v =>
        Event.value v valueType (valueType.bind fun t => schema.Types t.Name) (.ObjectValue fields))
      ++ walkObjectFields schema obs (valueType.bind fun t => schema.Types t.Name) fields
  | valueType, value =>
    obs.value.map (fun v =>
      Event.value v valueType (valueType.bind fun t => schema.Types t.Name) value)
/-- The loop `for _, v := range obj` of `Walker.walkValue`. -/
def walkObjectFields (schema : Schema) (obs : Events κ) (defn : Option Definition) :
    List (String × Value) → List (Event κ)
  | [] => []
  | (name, nested) :: rest =>
    walkValue schema obs ((defn.bind fun d => d.Field name).map fun f => f.Typ) nested
      ++ walkObjectFields schema obs defn rest
end

/-- `Walker.walkArgument`. -/
def walkArgument (schema : Schema) (obs : Events κ) (argDef : Option FieldDefinition)
    (arg : Argument) : List (Event κ) :=
  obs.argument.map (fun v => Event.argument v arg)
    ++ walkValue schema obs (argDef.map fun d => d.Typ) arg.Value

/-- The loops `for _, arg := range ...Arguments` of `walkDirectives` and of
the field case of `walkSelection`: each argument is walked with the
argument definition of its name in `args`, absent when `args` is absent. -/
def walkArguments (schema : Schema) (obs : Events κ) (args : Option (List FieldDefinition))
    (arguments : List Argument) : List (Event κ) :=
  arguments.flatMap fun arg =>
    walkArgument schema obs (args.bind fun l => FieldList.ForName l arg.Name) arg

/-- `Walker.walkDirectives`. -/
def walkDirectives (schema : Schema) (obs : Events κ) (parentDef : Option Definition)
    (directives : List Directive) (location : DirectiveLocation) : List (Event κ) :=
  obs.directiveList.map (fun v => Event.directiveList v parentDef directives location)
    ++ directives.flatMap fun dir =>
        obs.directive.map
            (fun v => Event.directive v parentDef (schema.Directives dir.Name) dir location)
          ++ walkArguments schema obs ((schema.Directives dir.Name).map fun d => d.Arguments)
              dir.Arguments

/-- The loops `for _, sel := range ... { w.walkSelection(nextParentDef, sel) }`. -/
def walkSelections (walkOne : Selection → List String → Res κ) :
    List Selection → List String → Res κ
  | [], seen => .ok [] seen
  | sel :: rest, seen => (walkOne sel seen).andThen (walkSelections walkOne rest)

/-- The field definition the field case of `Walker.walkSelection` resolves
(`var def *FieldDefinition` and the `if`/`else if` after it): the
synthetic definition for `__typename`, else the parent's field of that
name when there is a parent. -/
def fieldDefinitionFor (parentDef : Option Definition) (name : String) :
    Option FieldDefinition :=
  if name = "__typename" then some (.mk "__typename" [] (.NamedType "String"))
  else parentDef.bind fun p => p.Field name

/-- `Walker.walkSelection`.  The first argument bounds the nesting of
calls; the last is `validatedFragmentSpreads` on entry. -/
def walkSelection (schema : Schema) (doc : QueryDocument) (obs : Events κ) :
    Nat → Option Definition → Selection → List String → Res κ
  | 0, _, _, _ => .outOfFuel
  | fuel + 1, parentDef, .Field name arguments directives selectionSet, seen =>
    let defn : Option FieldDefinition := fieldDefinitionFor parentDef name
    let nextParentDef : Option Definition := defn.bind fun d => schema.Types d.Typ.Name
    ((walkSelections (walkSelection schema doc obs fuel nextParentDef) selectionSet seen).after
        (obs.field.map
            (fun v => Event.field v parentDef defn
              (.Field name arguments directives selectionSet))
          ++ walkArguments schema obs (defn.map fun d => d.Arguments) arguments)).andThen
      fun seen1 => .ok (walkDirectives schema obs nextParentDef directives .LocationField) seen1
  | fuel + 1, parentDef, .InlineFragment typeCondition directives selectionSet, seen =>
    let nextParentDef : Option Definition :=
      if typeCondition ≠ "" then schema.Types typeCondition else none
    (walkSelections (walkSelection schema doc obs fuel nextParentDef) selectionSet seen).after
      (obs.inlineFragment.map
          (fun v => Event.inlineFragment v parentDef
            (.InlineFragment typeCondition directives selectionSet))
        ++ walkDirectives schema obs nextParentDef directives .LocationInlineFragment)
  | fuel + 1, parentDef, .FragmentSpread name directives, seen =>
    let defn : Option FragmentDefinition := doc.GetFragment name
    let nextParentDef : Option Definition := defn.bind fun d => schema.Types d.TypeCondition
    let before : List (Event κ) :=
      obs.fragmentSpread.map
          (fun v => Event.fragmentSpread v parentDef defn (.FragmentSpread name directives))
        ++ walkDirectives schema obs nextParentDef directives .LocationFragmentSpread
    match defn with
    | some d =>
      if d.Name ∈ seen then .ok before seen
      else
        (walkSelections (walkSelection schema doc obs fuel nextParentDef) d.SelectionSet
          (d.Name :: seen)).after before
    | none => .ok before seen
  | _ + 1, _, .Unsupported, _ => .panic []

/-- The loop over the variable definitions in `Walker.walkOperation`. -/
def walkVariableDefinitions (schema : Schema) (obs : Events κ)
    (varDefs : List VariableDefinition) : List (Event κ) :=
  varDefs.flatMap fun varDef =>
    obs.variableVisitor.map
        (fun v => Event.variableDef v varDef.Typ (schema.Types varDef.Typ.Name) varDef)
      ++ match varDef.DefaultValue with
         | some value => walkValue schema obs (some varDef.Typ) value
         | none => []

/-- The `switch operation.Operation` of `Walker.walkOperation`: the parent
type and the directive location of an operation kind (both the zero
value for a kind that matches no case). -/
def operationRoot (schema : Schema) (kind : String) : Option Definition × DirectiveLocation :=
  if kind = Query ∨ kind = "" then (schema.Query, .LocationQuery)
  else if kind = Mutation then (schema.Mutation, .LocationMutation)
  else if kind = Subscription then (schema.Subscription, .LocationSubscription)
  else (none, .Unset)

/-- `Walker.walkOperation`. -/
def walkOperation (schema : Schema) (doc : QueryDocument) (obs : Events κ) (fuel : Nat)
    (operation : OperationDefinition) (seen : List String) : Res κ :=
  let defn := (operationRoot schema operation.Operation).1
  let loc := (operationRoot schema operation.Operation).2
  ((walkSelections (walkSelection schema doc obs fuel defn) operation.SelectionSet seen).after
      (obs.operationVisitor.map (fun v => Event.operation v operation)
        ++ walkDirectives schema obs defn operation.Directives loc
        ++ walkVariableDefinitions schema obs operation.VariableDefinitions)).andThen
    fun seen1 => .ok (obs.operationLeaveVisitor.map fun v => Event.operationLeave v operation) seen1

/-- `Walker.walkFragment`. -/
def walkFragment (schema : Schema) (doc : QueryDocument) (obs : Events κ) (fuel : Nat)
    (it : FragmentDefinition) (seen : List String) : Res κ :=
  let parentDef := schema.Types it.TypeCondition
  (walkSelections (walkSelection schema doc obs fuel parentDef) it.SelectionSet seen).after
    (walkDirectives schema obs parentDef it.Directives .LocationFragmentDefinition
      ++ obs.fragment.map fun v => Event.fragment v parentDef it)

/-- The two loops of `Walker.walk`: every child is walked as a root, from
a fresh `validatedFragmentSpreads`. -/
def walkRoots {α : Type} (walkRoot : α → List String → Res κ) : List α → List String → Res κ
  | [], seen => .ok [] seen
  | child :: rest, _ => (walkRoot child []).andThen (walkRoots walkRoot rest)

/-- `Walker.walk`, with the nesting allowance `fuel` for `walkSelection`. -/
def Walker.walk (schema : Schema) (doc : QueryDocument) (obs : Events κ) (fuel : Nat) : Res κ :=
  (walkRoots (walkOperation schema doc obs fuel) doc.Operations []).andThen
    (walkRoots (walkFragment schema doc obs fuel) doc.Fragments)

mutual
/-- Syntactic nesting depth of a selection. -/
def Selection.depth : Selection → Nat
  | .Field _ _ _ sels => Selection.depthList sels + 1
  | .InlineFragment _ _ sels => Selection.depthList sels + 1
  | .FragmentSpread _ _ => 0
  | .Unsupported => 0
/-- Largest nesting depth in a selection set. -/
def Selection.depthList : List Selection → Nat
  | [] => 0
  | s :: rest => max s.depth (Selection.depthList rest)
end

/-- Largest nesting depth among the selection sets of the document's
operations and fragments. -/
def QueryDocument.depth (doc : QueryDocument) : Nat :=
  max ((doc.Operations.map fun o => Selection.depthList o.SelectionSet).foldr max 0)
    ((doc.Fragments.map fun f => Selection.depthList f.SelectionSet).foldr max 0)

/-- Number of fragment names of the document that are not in `seen`. -/
def QueryDocument.unexpanded (doc : QueryDocument) (seen : List String) : Nat :=
  (((doc.Fragments.map fun f => f.Name).dedup).filter fun n => decide (n ∉ seen)).length

/-- Nesting allowance that suffices for every root of the document. -/
def QueryDocument.fuel (doc : QueryDocument) : Nat :=
  (doc.unexpanded [] + 1) * (doc.depth + 1)

/-- `Walk`: the walker is built from the three arguments and run. -/
def Walk (schema : Schema) (doc : QueryDocument) (obs : Events κ) : Res κ :=
  Walker.walk schema doc obs doc.fuel

mutual
/-- The selection and everything nested in it is one of the three variants
the walker knows. -/
def Selection.Supported : Selection → Bool
  | .Field _ _ _ sels => Selection.SupportedList sels
  | .InlineFragment _ _ sels => Selection.SupportedList sels
  | .FragmentSpread _ _ => true
  | .Unsupported => false
/-- Every selection of the selection set is supported. -/
def Selection.SupportedList : List Selection → Bool
  | [] => true
  | s :: rest => s.Supported && Selection.SupportedList rest
end

/-- Every selection set of the document holds supported selections only. -/
def QueryDocument.Supported (doc : QueryDocument) : Bool :=
  doc.Operations.all (fun o => Selection.SupportedList o.SelectionSet)
    && doc.Fragments.all (fun f => Selection.SupportedList f.SelectionSet)

/-- The trace of a result (empty when the allowance ran out). -/
def Res.trace : Res κ → List (Event κ)
  | .ok t _ => t
  | .panic t => t
  | .outOfFuel => []

/-- A result that is no panic. -/
def Res.noPanic : Res κ → Prop
  | .panic _ => False
  | _ => True

/-- The relation between `validatedFragmentSpreads` before and after a
completed walk: names were only added in front, and none twice. -/
def Grows (seen seen1 : List String) : Prop :=
  seen <:+ seen1 ∧ (seen.Nodup → seen1.Nodup)

/-- The event is the invocation of a Field, Inline-Fragment or
Fragment-Spread callback. -/
def Event.isSelection : Event κ → Bool
  | .field .. => true
  | .inlineFragment .. => true
  | .fragmentSpread .. => true
  | _ => false

/-- The event is the invocation of a Fragment-Spread callback. -/
def Event.isFragmentSpread : Event κ → Bool
  | .fragmentSpread .. => true
  | _ => false

/-! ## Sample schemas, documents and observers -/

/-- A schema without types, directives or roots. -/
def emptySchema : Schema where
  Types := fun _ => none
  Directives := fun _ => none
  Query := none
  Mutation := none
  Subscription := none

/-- An anonymous operation with the given selection set. -/
def anonymousOperation (sels : List Selection) : OperationDefinition where
  Operation := ""
  Name := ""
  VariableDefinitions := []
  Directives := []
  SelectionSet := sels

/-- The document `{ ...A }  fragment A { a ...B ...A }  fragment B { ...A }`:
fragment `A` spreads `B` and itself, and `B` spreads `A`. -/
def cyclicDocument : QueryDocument where
  Operations := [anonymousOperation [.FragmentSpread "A" []]]
  Fragments :=
    [ { Name := "A", TypeCondition := "T", Directives := [],
        SelectionSet := [.Field "a" [] [] [], .FragmentSpread "B" [], .FragmentSpread "A" []] },
      { Name := "B", TypeCondition := "T", Directives := [],
        SelectionSet := [.FragmentSpread "A" []] } ]

/-- A registry without callbacks. -/
def noObservers : Events Nat := {}

/-- A registry with one recording callback, `0`, for fields and one, `1`,
for fragment spreads. -/
def selectionObservers : Events Nat where
  field := [0]
  fragmentSpread := [1]

/-- The schema `Query { pet: Pet }  Pet { name: String }`. -/
def petSchema : Schema where
  Types := fun n =>
    if n = "Query" then some ⟨"Query", [.mk "pet" [] (.NamedType "Pet")]⟩
    else if n = "Pet" then some ⟨"Pet", [.mk "name" [] (.NamedType "String")]⟩
    else none
  Directives := fun _ => none
  Query := some ⟨"Query", [.mk "pet" [] (.NamedType "Pet")]⟩
  Mutation := none
  Subscription := none

/-- The document `{ pet { name } }`. -/
def petDocument : QueryDocument where
  Operations := [anonymousOperation [.Field "pet" [] [] [.Field "name" [] [] []]]]
  Fragments := []

/-- The document `{ ...F }  { ...F }  fragment F on Pet { name }`: two
anonymous operations spread the same fragment. -/
def sharedFragmentDocument : QueryDocument where
  Operations :=
    [anonymousOperation [.FragmentSpread "F" []], anonymousOperation [.FragmentSpread "F" []]]
  Fragments :=
    [ { Name := "F", TypeCondition := "Pet", Directives := [],
        SelectionSet := [.Field "name" [] [] []] } ]

/-- A registry with one recording callback for fields (`0`), fragment
spreads (`1`), inline fragments (`2`), directive lists (`3`), directives
(`4`) and arguments (`5`). -/
def recordingObservers : Events Nat where
  field := [0]
  fragmentSpread := [1]
  inlineFragment := [2]
  directiveList := [3]
  directive := [4]
  argument := [5]

/-- The field case of `walkSelection` in the words of the specification:
the field definition is the parent's field of that name, absent when the
parent is absent or has no such field, and the nested selections are walked
against the schema type named by the definition's declared type. -/
def FieldResolvedFromParent (schema : Schema) (doc : QueryDocument) (obs : Events κ)
    (fuel : Nat) (parentDef : Option Definition) (name : String) (arguments : List Argument)
    (directives : List Directive) (selectionSet : List Selection) (seen : List String) : Prop :=
  walkSelection schema doc obs (fuel + 1) parentDef
      (.Field name arguments directives selectionSet) seen
    = ((walkSelections
          (walkSelection schema doc obs fuel
            ((parentDef.bind fun p => p.Field name).bind fun d => schema.Types d.Typ.Name))
          selectionSet seen).after
        (obs.field.map
            (fun v => Event.field v parentDef (parentDef.bind fun p => p.Field name)
              (.Field name arguments directives selectionSet))
          ++ walkArguments schema obs
              ((parentDef.bind fun p => p.Field name).map fun d => d.Arguments)
              arguments)).andThen
      fun seen1 =>
        .ok (walkDirectives schema obs
              ((parentDef.bind fun p => p.Field name).bind fun d => schema.Types d.Typ.Name)
              directives .LocationField) seen1

/-! ## Registration -/

/-- `Events.OnOperation`. -/
def Events.OnOperation (o : Events κ) (f : κ) : Events κ :=
  { o with operationVisitor := o.operationVisitor ++ [f] }

/-- `Events.OnOperationLeave`. -/
def Events.OnOperationLeave (o : Events κ) (f : κ) : Events κ :=
  { o with operationLeaveVisitor := o.operationLeaveVisitor ++ [f] }

/-- `Events.OnField`. -/
def Events.OnField (o : Events κ) (f : κ) : Events κ :=
  { o with field := o.field ++ [f] }

/-- `Events.OnFragment`. -/
def Events.OnFragment (o : Events κ) (f : κ) : Events κ :=
  { o with fragment := o.fragment ++ [f] }

/-- `Events.OnInlineFragment`. -/
def Events.OnInlineFragment (o : Events κ) (f : κ) : Events κ :=
  { o with inlineFragment := o.inlineFragment ++ [f] }

/-- `Events.OnFragmentSpread`. -/
def Events.OnFragmentSpread (o : Events κ) (f : κ) : Events κ :=
  { o with fragmentSpread := o.fragmentSpread ++ [f] }

/-- `Events.OnDirective`. -/
def Events.OnDirective (o : Events κ) (f : κ) : Events κ :=
  { o with directive := o.directive ++ [f] }

/-- `Events.OnDirectiveList`. -/
def Events.OnDirectiveList (o : Events κ) (f : κ) : Events κ :=
  { o with directiveList := o.directiveList ++ [f] }

/-- `Events.OnArgument`. -/
def Events.OnArgument (o : Events κ) (f : κ) : Events κ :=
  { o with argument := o.argument ++ [f] }

/-- `Events.OnValue`. -/
def Events.OnValue (o : Events κ) (f : κ) : Events κ :=
  { o with value := o.value ++ [f] }

/-- `Events.OnVariable`. -/
def Events.OnVariable (o : Events κ) (f : κ) : Events κ :=
  { o with variableVisitor := o.variableVisitor ++ [f] }

/-- The eleven node kinds of the registry. -/
inductive Kind where
  | operation
  | operationLeave
  | field
  | fragment
  | inlineFragment
  | fragmentSpread
  | directive
  | directiveList
  | argument
  | value
  | variableDef
  deriving DecidableEq, Repr

/-- The callback list of the registry for a node kind. -/
def Events.slot (o : Events κ) : Kind → List κ
  | .operation => o.operationVisitor
  | .operationLeave => o.operationLeaveVisitor
  | .field => o.field
  | .fragment => o.fragment
  | .inlineFragment => o.inlineFragment
  | .fragmentSpread => o.fragmentSpread
  | .directive => o.directive
  | .directiveList => o.directiveList
  | .argument => o.argument
  | .value => o.value
  | .variableDef => o.variableVisitor

/-- The registration function of a node kind. -/
def Events.on (o : Events κ) (k : Kind) (f : κ) : Events κ :=
  match k with
  | .operation => o.OnOperation f
  | .operationLeave => o.OnOperationLeave f
  | .field => o.OnField f
  | .fragment => o.OnFragment f
  | .inlineFragment => o.OnInlineFragment f
  | .fragmentSpread => o.OnFragmentSpread f
  | .directive => o.OnDirective f
  | .directiveList => o.OnDirectiveList f
  | .argument => o.OnArgument f
  | .value => o.OnValue f
  | .variableDef => o.OnVariable f

/-- The node kind whose callback an event invokes. -/
def Event.kind {α : Type} : Event α → Kind
  | .operation .. => .operation
  | .operationLeave .. => .operationLeave
  | .field .. => .field
  | .fragment .. => .fragment
  | .inlineFragment .. => .inlineFragment
  | .fragmentSpread .. => .fragmentSpread
  | .directive .. => .directive
  | .directiveList .. => .directiveList
  | .argument .. => .argument
  | .value .. => .value
  | .variableDef .. => .variableDef

/-- The same invocation (kind and arguments) made by the callback `v`. -/
def Event.withCallback {α β : Type} : Event α → β → Event β
  | .operation _ o, v => .operation v o
  | .operationLeave _ o, v => .operationLeave v o
  | .field _ p d f, v => .field v p d f
  | .fragment _ p f, v => .fragment v p f
  | .inlineFragment _ p f, v => .inlineFragment v p f
  | .fragmentSpread _ p d f, v => .fragmentSpread v p d f
  | .directive _ p d x l, v => .directive v p d x l
  | .directiveList _ p ds l, v => .directiveList v p ds l
  | .argument _ a, v => .argument v a
  | .value _ t d x, v => .value v t d x
  | .variableDef _ t d x, v => .variableDef v t d x

/-- The invocations a visited node gives rise to: every callback registered
for the node's kind, in registration order, with the node's arguments.  A
node is an invocation without its callback. -/
def Events.dispatch (o : Events κ) (node : Event Unit) : List (Event κ) :=
  (o.slot node.kind).map node.withCallback

/-- The trace `t` is made of whole dispatches: there is a sequence of
visited nodes, of kinds among `kinds`, such that `t` is the dispatch of
the first node, followed by the dispatch of the second, and so on. -/
def DispatchedBy (o : Events κ) (kinds : List Kind) (t : List (Event κ)) : Prop :=
  ∃ nodes : List (Event Unit), (∀ n ∈ nodes, n.kind ∈ kinds) ∧ t = nodes.flatMap o.dispatch

/-- The node kinds a directive walk can visit. -/
def directiveKinds : List Kind := [.directiveList, .directive, .argument, .value]

/-- The node kinds a selection walk can visit. -/
def selectionKinds : List Kind :=
  [.field, .inlineFragment, .fragmentSpread, .directiveList, .directive, .argument, .value]

/-- The node kinds between the enter and the leave callbacks of an
operation. -/
def operationBodyKinds : List Kind :=
  [.variableDef, .field, .inlineFragment, .fragmentSpread, .directiveList, .directive,
    .argument, .value]

/-- All node kinds. -/
def allKinds : List Kind :=
  [.operation, .operationLeave, .field, .fragment, .inlineFragment, .fragmentSpread,
    .directive, .directiveList, .argument, .value, .variableDef]

/-- A variable definition `$x: Missing = 1` whose declared type no schema
below knows. -/
def missingTypeVariable : VariableDefinition where
  Variable := "x"
  Typ := .NamedType "Missing"
  DefaultValue := some (.ScalarValue "1")

/-- A registry with one recording callback for values (`6`) and one for
variable definitions (`7`). -/
def valueObservers : Events Nat where
  value := [6]
  variableVisitor := [7]

/-- A result that is not a completed walk. -/
def Res.notOk (r : Res κ) : Prop := ∀ t seen, r ≠ .ok t seen

/-- The document `{ a <unsupported> b }`. -/
def unsupportedDocument : QueryDocument where
  Operations :=
    [anonymousOperation [.Field "a" [] [] [], .Unsupported, .Field "b" [] [] []]]
  Fragments := []

/-- The fragment `fragment F on Pet @d { name }`. -/
def directiveFragment : FragmentDefinition where
  Name := "F"
  TypeCondition := "Pet"
  Directives := [⟨"d", []⟩]
  SelectionSet := [.Field "name" [] [] []]

/-- The document consisting of `fragment F on Pet @d { name }`. -/
def directiveFragmentDocument : QueryDocument where
  Operations := []
  Fragments := [directiveFragment]

/-- The operation `query ($x: Missing = 1) @d { pet }`. -/
def sampleOperation : OperationDefinition where
  Operation := "query"
  Name := "Q"
  VariableDefinitions := [missingTypeVariable]
  Directives := [⟨"d", []⟩]
  SelectionSet := [.Field "pet" [] [] []]

/-- A registry with the recording callbacks `10` (operation enter), `11`
(operation leave), `0` (field), `3` (directive list) and `7`
(variable definition). -/
def operationObservers : Events Nat where
  operationVisitor := [10]
  operationLeaveVisitor := [11]
  field := [0]
  directiveList := [3]
  variableVisitor := [7]

/-- The ordering of a fragment root in the words "directive callbacks for a
fragment run after its children are visited": the trace of a completed
`walkFragment` ends with the trace of the fragment's selection set
followed by the walk of the fragment's own directives. -/
def FragmentDirectivesAfterSelections (schema : Schema) (doc : QueryDocument)
    (obs : Events κ) (fuel : Nat) (f : FragmentDefinition) (seen : List String) : Prop :=
  ∀ t seen1, walkFragment schema doc obs fuel f seen = .ok t seen1 →
    ∃ before children,
      walkSelections (walkSelection schema doc obs fuel (schema.Types f.TypeCondition))
          f.SelectionSet seen = .ok children seen1
      ∧ t = before ++ children
          ++ walkDirectives schema obs (schema.Types f.TypeCondition) f.Directives
              .LocationFragmentDefinition

mutual
/-- The values of the object fields nested anywhere inside a value, those
of objects that are elements of a list included. -/
def Value.objectFieldValues : Value → List Value
  | .ScalarValue _ => []
  | .Variable _ => []
  | .ListValue elems => Value.objectFieldValuesOfList elems
  | .ObjectValue fields => Value.objectFieldValuesOfFields fields
/-- The values of the object fields nested in the elements of a list. -/
def Value.objectFieldValuesOfList : List Value → List Value
  | [] => []
  | v :: rest => v.objectFieldValues ++ Value.objectFieldValuesOfList rest
/-- The values of the given object fields and of the object fields nested
in them. -/
def Value.objectFieldValuesOfFields : List (String × Value) → List Value
  | [] => []
  | (_, v) :: rest => v :: v.objectFieldValues ++ Value.objectFieldValuesOfFields rest
end

mutual
/-- The values of the object fields reached from a value through object
fields only (not through the elements of a list). -/
def Value.reachedFieldValues : Value → List Value
  | .ScalarValue _ => []
  | .Variable _ => []
  | .ListValue _ => []
  | .ObjectValue fields => Value.reachedFieldValuesOfFields fields
/-- The values of the given object fields and of the object fields reached
from them. -/
def Value.reachedFieldValuesOfFields : List (String × Value) → List Value
  | [] => []
  | (_, v) :: rest => v :: v.reachedFieldValues ++ Value.reachedFieldValuesOfFields rest
end

/-- The statement "every value of an object field nested anywhere inside the
walked value, also inside the elements of a list, receives a Value
callback invocation". -/
def NestedFieldValuesVisited (schema : Schema) (obs : Events κ) (valueType : Option GType)
    (value : Value) : Prop :=
  ∀ x ∈ value.objectFieldValues, ∀ cb ∈ obs.value,
    ∃ t d, Event.value cb t d x ∈ walkValue schema obs valueType value

/-- The value `[{a: 1}]`, a list holding one object. -/
def listOfObjects : Value :=
  .ListValue [.ObjectValue [("a", .ScalarValue "1")]]

/-- The value `{name: "x", extra: {deep: "y"}}`. -/
def nestedObject : Value :=
  .ObjectValue [("name", .ScalarValue "x"), ("extra", .ObjectValue [("deep", .ScalarValue "y")])]

mutual
/-- No fragment spread occurs in the selection or nested in it. -/
def Selection.SpreadFree : Selection → Bool
  | .Field _ _ _ sels => Selection.SpreadFreeList sels
  | .InlineFragment _ _ sels => Selection.SpreadFreeList sels
  | .FragmentSpread _ _ => false
  | .Unsupported => true
/-- No fragment spread occurs in the selection set. -/
def Selection.SpreadFreeList : List Selection → Bool
  | [] => true
  | s :: rest => s.SpreadFree && Selection.SpreadFreeList rest
end

/-- The fragment `fragment F on Pet { name ...F }`, which spreads itself. -/
def selfSpreadFragment : FragmentDefinition where
  Name := "F"
  TypeCondition := "Pet"
  Directives := []
  SelectionSet := [.Field "name" [] [] [], .FragmentSpread "F" []]

/-- The document consisting of `fragment F on Pet { name ...F }`. -/
def selfSpreadDocument : QueryDocument where
  Operations := []
  Fragments := [selfSpreadFragment]

/-- The node kinds a fragment root can visit. -/
def fragmentKinds : List Kind :=
  [.fragment, .field, .inlineFragment, .fragmentSpread, .directiveList, .directive,
    .argument, .value]

/-! ## The rule `LoneAnonymousOperation` -/

/-- Modelled from the spec: an error a rule reports through `addError`
(its message; the position is left out). -/
structure ValidationError where
  Message : String

/-- A callback on operations, as a rule registers it with `OnOperation`:
from the walker's document and the operation to the errors it adds with
`addError`. -/
def OperationCallback : Type := QueryDocument → OperationDefinition → List ValidationError

/-- The callback of the rule `LoneAnonymousOperation`:
`if operation.Name == "" && len(walker.Document.Operations) > 1 { addError(...) }`. -/
def loneAnonymousOperation : OperationCallback := fun document operation =>
  if operation.Name = "" ∧ document.Operations.length > 1 then
    [⟨"This anonymous operation must be the only defined operation."⟩]
  else []

/-- The rule `LoneAnonymousOperation`: it registers its callback with
`observers.OnOperation`. -/
def LoneAnonymousOperation (observers : Events OperationCallback) : Events OperationCallback :=
  observers.OnOperation loneAnonymousOperation

/-- The errors an invocation adds, in a registry of callbacks on
operations. -/
def Event.errors (document : QueryDocument) : Event OperationCallback → List ValidationError
  | .operation v op => v document op
  | .operationLeave v op => v document op
  | _ => []

/-- The errors added while the invocations of a trace run, in order. -/
def addedErrors (document : QueryDocument) (t : List (Event OperationCallback)) :
    List ValidationError :=
  t.flatMap (Event.errors document)

/-- The document `{ ...F }  { ...F }  query Q { name }  fragment F on Pet { name }`:
two anonymous operations and a named one. -/
def threeOperationsDocument : QueryDocument where
  Operations :=
    [ anonymousOperation [.FragmentSpread "F" []],
      anonymousOperation [.FragmentSpread "F" []],
      { Operation := "query", Name := "Q", VariableDefinitions := [], Directives := [],
        SelectionSet := [.Field "name" [] [] []] } ]
  Fragments :=
    [ { Name := "F", TypeCondition := "Pet", Directives := [],
        SelectionSet := [.Field "name" [] [] []] } ]

mutual
/-- The callbacks of a selection and of the selections written inside it,
no fragment being descended into: what `walkSelection` invokes on it apart
from the walks of the selection sets of the fragments it spreads. -/
def Selection.ownTrace (schema : Schema) (doc : QueryDocument) (obs : Events κ) :
    Option Definition → Selection → List (Event κ)
  | parentDef, .Field name arguments directives selectionSet =>
    obs.field.map
        (fun v => Event.field v parentDef (fieldDefinitionFor parentDef name)
          (.Field name arguments directives selectionSet))
      ++ walkArguments schema obs
          ((fieldDefinitionFor parentDef name).map fun d => d.Arguments) arguments
      ++ Selection.ownTraceList schema doc obs
          ((fieldDefinitionFor parentDef name).bind fun d => schema.Types d.Typ.Name)
          selectionSet
      ++ walkDirectives schema obs
          ((fieldDefinitionFor parentDef name).bind fun d => schema.Types d.Typ.Name)
          directives .LocationField
  | parentDef, .InlineFragment typeCondition directives selectionSet =>
    obs.inlineFragment.map
        (fun v => Event.inlineFragment v parentDef
          (.InlineFragment typeCondition directives selectionSet))
      ++ walkDirectives schema obs
          (if typeCondition ≠ "" then schema.Types typeCondition else none)
          directives .LocationInlineFragment
      ++ Selection.ownTraceList schema doc obs
          (if typeCondition ≠ "" then schema.Types typeCondition else none) selectionSet
  | parentDef, .FragmentSpread name directives =>
    obs.fragmentSpread.map
        (fun v => Event.fragmentSpread v parentDef (doc.GetFragment name)
          (.FragmentSpread name directives))
      ++ walkDirectives schema obs
          ((doc.GetFragment name).bind fun d => schema.Types d.TypeCondition)
          directives .LocationFragmentSpread
  | _, .Unsupported => []
/-- The callbacks of the selections of a selection set, no fragment being
descended into. -/
def Selection.ownTraceList (schema : Schema) (doc : QueryDocument) (obs : Events κ) :
    Option Definition → List Selection → List (Event κ)
  | _, [] => []
  | parentDef, sel :: rest =>
    sel.ownTrace schema doc obs parentDef
      ++ Selection.ownTraceList schema doc obs parentDef rest
end

/-- The callbacks of the selection set of the fragment of the given name,
walked against the fragment's type condition, no further fragment being
descended into: what one descent into that fragment invokes by itself. -/
def QueryDocument.bodyTrace (doc : QueryDocument) (schema : Schema) (obs : Events κ)
    (name : String) : List (Event κ) :=
  match doc.GetFragment name with
  | some d =>
    Selection.ownTraceList schema doc obs (schema.Types d.TypeCondition) d.SelectionSet
  | none => []

/-- The document `{ ... { ...F } ...F }  fragment F on Pet { name }`: the
fragment is spread inside an inline fragment and once more after it. -/
def nestedSpreadDocument : QueryDocument where
  Operations :=
    [anonymousOperation
      [.InlineFragment "" [] [.FragmentSpread "F" []], .FragmentSpread "F" []]]
  Fragments :=
    [ { Name := "F", TypeCondition := "Pet", Directives := [],
        SelectionSet := [.Field "name" [] [] []] } ]

/-! ## Results and sequencing -/

@[simp] theorem Res.after_nil (r : Res κ) : r.after [] = r := by
  cases r <;> simp [Res.after]

@[simp] theorem Res.after_after (a b : List (Event κ)) (r : Res κ) :
    (r.after b).after a = r.after (a ++ b) := by
  cases r <;> simp [Res.after]

@[simp] theorem Res.after_ok (a t : List (Event κ)) (seen : List String) :
    (Res.ok t seen).after a = .ok (a ++ t) seen := rfl

@[simp] theorem Res.after_panic (a t : List (Event κ)) :
    (Res.panic t).after a = .panic (a ++ t) := rfl

@[simp] theorem Res.after_outOfFuel (a : List (Event κ)) :
    (Res.outOfFuel : Res κ).after a = .outOfFuel := rfl

@[simp] theorem Res.andThen_ok (t : List (Event κ)) (seen : List String)
    (k : List String → Res κ) : (Res.ok t seen).andThen k = (k seen).after t := rfl

@[simp] theorem Res.andThen_panic (t : List (Event κ)) (k : List String → Res κ) :
    (Res.panic t).andThen k = .panic t := rfl

@[simp] theorem Res.andThen_outOfFuel (k : List String → Res κ) :
    (Res.outOfFuel : Res κ).andThen k = .outOfFuel := rfl

theorem Res.andThen_after (a : List (Event κ)) (r : Res κ) (k : List String → Res κ) :
    (r.after a).andThen k = (r.andThen k).after a := by
  cases r <;> simp

theorem Res.after_eq_ok {a t : List (Event κ)} {r : Res κ} {seen : List String}
    (h : r.after a = .ok t seen) : ∃ t1, r = .ok t1 seen ∧ t = a ++ t1 := by
  cases r with
  | ok t1 s => simp at h; exact ⟨t1, by simp [h.2], h.1.symm⟩
  | panic t1 => simp at h
  | outOfFuel => simp at h

theorem Res.andThen_eq_ok {r : Res κ} {k : List String → Res κ} {t : List (Event κ)}
    {seen : List String} (h : r.andThen k = .ok t seen) :
    ∃ t1 s1 t2, r = .ok t1 s1 ∧ k s1 = .ok t2 seen ∧ t = t1 ++ t2 := by
  cases r with
  | ok t1 s1 =>
    simp at h
    obtain ⟨t2, h2, h3⟩ := Res.after_eq_ok h
    exact ⟨t1, s1, t2, rfl, h2, h3⟩
  | panic t1 => simp at h
  | outOfFuel => simp at h

theorem Res.after_ne_outOfFuel {a : List (Event κ)} {r : Res κ} :
    r.after a ≠ .outOfFuel ↔ r ≠ .outOfFuel := by
  cases r <;> simp

theorem Res.andThen_ne_outOfFuel {r : Res κ} {k : List String → Res κ}
    (hr : r ≠ .outOfFuel) (hk : ∀ t seen, r = .ok t seen → k seen ≠ .outOfFuel) :
    r.andThen k ≠ .outOfFuel := by
  cases r with
  | ok t s => simpa [Res.after_ne_outOfFuel] using hk t s rfl
  | panic t => simp
  | outOfFuel => exact absurd rfl hr

theorem Res.after_noPanic {a : List (Event κ)} {r : Res κ} :
    (r.after a).noPanic ↔ r.noPanic := by
  cases r <;> simp [Res.noPanic]

theorem Res.andThen_noPanic {r : Res κ} {k : List String → Res κ}
    (hr : r.noPanic) (hk : ∀ seen, (k seen).noPanic) : (r.andThen k).noPanic := by
  cases r with
  | ok t s => simpa [Res.after_noPanic] using hk s
  | panic t => exact hr
  | outOfFuel => simp [Res.noPanic]

theorem Res.eq_ok_of {r : Res κ} (h1 : r ≠ .outOfFuel) (h2 : r.noPanic) :
    ∃ t seen, r = .ok t seen := by
  cases r with
  | ok t s => exact ⟨t, s, rfl⟩
  | panic t => exact absurd h2 (by simp [Res.noPanic])
  | outOfFuel => exact absurd rfl h1

/-! ## The expanded set only grows -/

theorem Grows.refl (seen : List String) : Grows seen seen :=
  ⟨List.suffix_refl seen, id⟩

theorem Grows.trans {a b c : List String} (h1 : Grows a b) (h2 : Grows b c) : Grows a c :=
  ⟨h1.1.trans h2.1, fun h => h2.2 (h1.2 h)⟩

theorem Grows.cons {name : String} {seen : List String} (h : name ∉ seen) :
    Grows seen (name :: seen) :=
  ⟨List.suffix_cons name seen, fun hn => List.nodup_cons.2 ⟨h, hn⟩⟩

theorem Grows.mem {a b : List String} (h : Grows a b) {n : String} (hn : n ∈ a) : n ∈ b :=
  h.1.subset hn

theorem walkSelections_grows {walkOne : Selection → List String → Res κ}
    (h1 : ∀ sel seen t seen1, walkOne sel seen = .ok t seen1 → Grows seen seen1) :
    ∀ sels seen t seen1, walkSelections walkOne sels seen = .ok t seen1 → Grows seen seen1 := by
  intro sels
  induction sels with
  | nil =>
    intro seen t seen1 h
    simp [walkSelections] at h
    rw [h.2]
    exact Grows.refl _
  | cons sel rest ih =>
    intro seen t seen1 h
    simp only [walkSelections] at h
    obtain ⟨ta, sa, tb, ha, hb, -⟩ := Res.andThen_eq_ok h
    exact (h1 _ _ _ _ ha).trans (ih _ _ _ hb)

theorem walkSelection_grows (schema : Schema) (doc : QueryDocument) (obs : Events κ) :
    ∀ fuel parentDef sel seen t seen1,
      walkSelection schema doc obs fuel parentDef sel seen = .ok t seen1 → Grows seen seen1 := by
  intro fuel
  induction fuel with
  | zero => intro parentDef sel seen t seen1 h; simp [walkSelection] at h
  | succ fuel ih =>
    intro parentDef sel seen t seen1 h
    cases sel with
    | Field name arguments directives selectionSet =>
      simp only [walkSelection] at h
      obtain ⟨ta, sa, tb, ha, hb, -⟩ := Res.andThen_eq_ok h
      obtain ⟨tc, hc, -⟩ := Res.after_eq_ok ha
      simp at hb
      rw [← hb.2]
      exact walkSelections_grows (ih _) _ _ _ _ hc
    | InlineFragment typeCondition directives selectionSet =>
      simp only [walkSelection] at h
      obtain ⟨tc, hc, -⟩ := Res.after_eq_ok h
      exact walkSelections_grows (ih _) _ _ _ _ hc
    | FragmentSpread name directives =>
      simp only [walkSelection] at h
      cases hd : doc.GetFragment name with
      | none =>
        rw [hd] at h
        simp at h
        rw [h.2]
        exact Grows.refl _
      | some d =>
        rw [hd] at h
        by_cases hm : d.Name ∈ seen
        · simp [hm] at h
          rw [h.2]
          exact Grows.refl _
        · simp only [hm, if_false] at h
          obtain ⟨tc, hc, -⟩ := Res.after_eq_ok h
          exact (Grows.cons hm).trans (walkSelections_grows (ih _) _ _ _ _ hc)
    | Unsupported => simp [walkSelection] at h

/-! ## The nesting allowance -/

theorem Selection.supportedList_iff (sels : List Selection) :
    Selection.SupportedList sels = true ↔ ∀ s ∈ sels, s.Supported = true := by
  induction sels with
  | nil => simp [Selection.SupportedList]
  | cons s rest ih => simp [Selection.SupportedList, ih]

theorem Selection.depth_le_depthList {s : Selection} {sels : List Selection} (h : s ∈ sels) :
    s.depth ≤ Selection.depthList sels := by
  induction sels with
  | nil => simp at h
  | cons a rest ih =>
    simp only [Selection.depthList]
    rcases List.mem_cons.1 h with h1 | h1
    · subst h1; exact le_max_left _ _
    · exact le_trans (ih h1) (le_max_right _ _)

theorem filter_not_mem_length_lt (l : List String) (n : String) (seen : List String)
    (hn : n ∈ l) (hs : n ∉ seen) :
    (l.filter fun x => decide (x ∉ n :: seen)).length
      < (l.filter fun x => decide (x ∉ seen)).length := by
  have e : (l.filter fun x => decide (x ∉ n :: seen))
      = (l.filter fun x => decide (x ∉ seen)).filter fun x => decide (x ≠ n) := by
    rw [List.filter_filter]
    congr 1
    funext x
    simp [List.mem_cons, not_or]
  rw [e]
  exact List.length_filter_lt_length_iff_exists.2
    ⟨n, List.mem_filter.2 ⟨hn, by simpa using hs⟩, by simp⟩

theorem QueryDocument.getFragment_mem {doc : QueryDocument} {name : String}
    {d : FragmentDefinition} (h : doc.GetFragment name = some d) :
    d ∈ doc.Fragments ∧ d.Name = name := by
  refine ⟨List.mem_of_find?_eq_some h, ?_⟩
  have := List.find?_some h
  simpa using this

theorem QueryDocument.unexpanded_lt {doc : QueryDocument} {name : String}
    {d : FragmentDefinition} {seen : List String} (h : doc.GetFragment name = some d)
    (hs : d.Name ∉ seen) : doc.unexpanded (d.Name :: seen) < doc.unexpanded seen := by
  unfold QueryDocument.unexpanded
  apply filter_not_mem_length_lt _ _ _ _ hs
  rw [List.mem_dedup]
  exact List.mem_map.2 ⟨d, (QueryDocument.getFragment_mem h).1, rfl⟩

theorem QueryDocument.unexpanded_le (doc : QueryDocument) {seen seen1 : List String}
    (h : Grows seen seen1) : doc.unexpanded seen1 ≤ doc.unexpanded seen := by
  unfold QueryDocument.unexpanded
  apply List.Sublist.length_le
  apply List.monotone_filter_right
  intro a ha
  simp only [decide_eq_true_eq] at ha ⊢
  exact fun hm => ha (h.mem hm)

theorem walkSelections_ne_outOfFuel {walkOne : Selection → List String → Res κ}
    (seen0 : List String)
    (hg : ∀ sel seen t seen1, walkOne sel seen = .ok t seen1 → Grows seen seen1) :
    ∀ sels : List Selection,
      (∀ sel ∈ sels, ∀ seen, Grows seen0 seen → walkOne sel seen ≠ .outOfFuel) →
      ∀ seen, Grows seen0 seen → walkSelections walkOne sels seen ≠ .outOfFuel := by
  intro sels
  induction sels with
  | nil => intro _ seen _; simp [walkSelections]
  | cons sel rest ih =>
    intro h seen hs
    simp only [walkSelections]
    apply Res.andThen_ne_outOfFuel (h sel (List.mem_cons_self _ _) seen hs)
    intro t seen1 h1
    exact ih (fun s hm => h s (List.mem_cons_of_mem _ hm)) seen1 (hs.trans (hg _ _ _ _ h1))

/-- A nesting allowance of `unexpanded * (D + 1) + depth + 1` is never used
up, `D` bounding the depth of the fragments' selection sets. -/
theorem walkSelection_ne_outOfFuel (schema : Schema) (doc : QueryDocument) (obs : Events κ)
    (D : Nat) (hD : ∀ f ∈ doc.Fragments, Selection.depthList f.SelectionSet ≤ D) :
    ∀ fuel parentDef sel seen,
      doc.unexpanded seen * (D + 1) + sel.depth + 1 ≤ fuel →
      walkSelection schema doc obs fuel parentDef sel seen ≠ .outOfFuel := by
  intro fuel
  induction fuel with
  | zero => intro parentDef sel seen h; omega
  | succ fuel ih =>
    intro parentDef sel seen h
    have key : ∀ (sels : List Selection) (seenA : List String) (next : Option Definition),
        doc.unexpanded seenA * (D + 1) + Selection.depthList sels + 1 ≤ fuel →
        walkSelections (walkSelection schema doc obs fuel next) sels seenA ≠ .outOfFuel := by
      intro sels seenA next hb
      apply walkSelections_ne_outOfFuel seenA (walkSelection_grows schema doc obs fuel next) sels
        _ seenA (Grows.refl _)
      intro s hs seenB hg
      apply ih
      have h1 := Selection.depth_le_depthList hs
      have h2 := Nat.mul_le_mul_right (D + 1) (doc.unexpanded_le hg)
      omega
    cases sel with
    | Field name arguments directives selectionSet =>
      simp only [walkSelection]
      apply Res.andThen_ne_outOfFuel
      · rw [Res.after_ne_outOfFuel]
        apply key
        simp only [Selection.depth] at h
        omega
      · intro t s _; simp
    | InlineFragment typeCondition directives selectionSet =>
      simp only [walkSelection]
      rw [Res.after_ne_outOfFuel]
      apply key
      simp only [Selection.depth] at h
      omega
    | FragmentSpread name directives =>
      simp only [walkSelection]
      cases hd : doc.GetFragment name with
      | none => simp
      | some d =>
        by_cases hm : d.Name ∈ seen
        · simp [hm]
        · simp only [hm, if_false]
          rw [Res.after_ne_outOfFuel]
          apply key
          have h1 := hD d (QueryDocument.getFragment_mem hd).1
          have h2 : (doc.unexpanded (d.Name :: seen) + 1) * (D + 1)
              ≤ doc.unexpanded seen * (D + 1) :=
            Nat.mul_le_mul_right (D + 1) (QueryDocument.unexpanded_lt hd hm)
          rw [Nat.add_mul] at h2
          omega
    | Unsupported => simp [walkSelection]

theorem walkSelections_noPanic {walkOne : Selection → List String → Res κ} :
    ∀ sels : List Selection, (∀ sel ∈ sels, ∀ seen, (walkOne sel seen).noPanic) →
      ∀ seen, (walkSelections walkOne sels seen).noPanic := by
  intro sels
  induction sels with
  | nil => intro _ seen; simp [walkSelections, Res.noPanic]
  | cons sel rest ih =>
    intro h seen
    simp only [walkSelections]
    exact Res.andThen_noPanic (h sel (List.mem_cons_self _ _) seen)
      (ih fun s hm => h s (List.mem_cons_of_mem _ hm))

/-- On supported selections the walker does not panic. -/
theorem walkSelection_noPanic (schema : Schema) (doc : QueryDocument) (obs : Events κ)
    (hF : ∀ f ∈ doc.Fragments, Selection.SupportedList f.SelectionSet = true) :
    ∀ fuel parentDef sel seen, sel.Supported = true →
      (walkSelection schema doc obs fuel parentDef sel seen).noPanic := by
  intro fuel
  induction fuel with
  | zero => intro parentDef sel seen _; simp [walkSelection, Res.noPanic]
  | succ fuel ih =>
    intro parentDef sel seen h
    have key : ∀ (sels : List Selection) (seenA : List String) (next : Option Definition),
        Selection.SupportedList sels = true →
        (walkSelections (walkSelection schema doc obs fuel next) sels seenA).noPanic := by
      intro sels seenA next hs
      apply walkSelections_noPanic
      intro s hm seenB
      exact ih _ _ _ ((Selection.supportedList_iff sels).1 hs s hm)
    cases sel with
    | Field name arguments directives selectionSet =>
      simp only [walkSelection]
      apply Res.andThen_noPanic
      · rw [Res.after_noPanic]
        exact key _ _ _ (by simpa [Selection.Supported] using h)
      · intro s; simp [Res.noPanic]
    | InlineFragment typeCondition directives selectionSet =>
      simp only [walkSelection]
      rw [Res.after_noPanic]
      exact key _ _ _ (by simpa [Selection.Supported] using h)
    | FragmentSpread name directives =>
      simp only [walkSelection]
      cases hd : doc.GetFragment name with
      | none => simp [Res.noPanic]
      | some d =>
        by_cases hm : d.Name ∈ seen
        · simp [hm, Res.noPanic]
        · simp only [hm, if_false]
          rw [Res.after_noPanic]
          exact key _ _ _ (hF d (QueryDocument.getFragment_mem hd).1)
    | Unsupported => simp [Selection.Supported] at h

theorem Res.ne_outOfFuel_of_andThen {r : Res κ} {k : List String → Res κ}
    (h : r.andThen k ≠ .outOfFuel) : r ≠ .outOfFuel := by
  intro e; rw [e] at h; simp at h

theorem walkSelections_congr {walkOne walkTwo : Selection → List String → Res κ}
    (h : ∀ sel seen, walkOne sel seen ≠ .outOfFuel → walkTwo sel seen = walkOne sel seen) :
    ∀ sels seen, walkSelections walkOne sels seen ≠ .outOfFuel →
      walkSelections walkTwo sels seen = walkSelections walkOne sels seen := by
  intro sels
  induction sels with
  | nil => intro seen _; simp [walkSelections]
  | cons sel rest ih =>
    intro seen hne
    simp only [walkSelections] at hne ⊢
    rw [h sel seen (Res.ne_outOfFuel_of_andThen hne)]
    cases hr : walkOne sel seen with
    | ok t s =>
      rw [hr] at hne
      simp only [Res.andThen_ok] at hne ⊢
      rw [ih s (Res.after_ne_outOfFuel.1 hne)]
    | panic t => simp
    | outOfFuel => simp

/-- One more level of nesting allowance does not change a result that did
not use the allowance up. -/
theorem walkSelection_fuel_succ (schema : Schema) (doc : QueryDocument) (obs : Events κ) :
    ∀ fuel parentDef sel seen,
      walkSelection schema doc obs fuel parentDef sel seen ≠ .outOfFuel →
      walkSelection schema doc obs (fuel + 1) parentDef sel seen
        = walkSelection schema doc obs fuel parentDef sel seen := by
  intro fuel
  induction fuel with
  | zero => intro parentDef sel seen h; simp [walkSelection] at h
  | succ fuel ih =>
    intro parentDef sel seen h
    cases sel with
    | Field name arguments directives selectionSet =>
      simp only [walkSelection] at h ⊢
      have h1 := Res.after_ne_outOfFuel.1 (Res.ne_outOfFuel_of_andThen h)
      rw [walkSelections_congr (ih _) _ _ h1]
    | InlineFragment typeCondition directives selectionSet =>
      simp only [walkSelection] at h ⊢
      rw [walkSelections_congr (ih _) _ _ (Res.after_ne_outOfFuel.1 h)]
    | FragmentSpread name directives =>
      simp only [walkSelection] at h ⊢
      cases hd : doc.GetFragment name with
      | none => rfl
      | some d =>
        rw [hd] at h
        by_cases hm : d.Name ∈ seen
        · simp [hm]
        · simp only [hm, if_false] at h ⊢
          rw [walkSelections_congr (ih _) _ _ (Res.after_ne_outOfFuel.1 h)]
    | Unsupported => simp [walkSelection]

theorem walkSelection_fuel_le (schema : Schema) (doc : QueryDocument) (obs : Events κ)
    {fuel fuel1 : Nat} (hle : fuel ≤ fuel1) (parentDef : Option Definition) (sel : Selection)
    (seen : List String)
    (h : walkSelection schema doc obs fuel parentDef sel seen ≠ .outOfFuel) :
    walkSelection schema doc obs fuel1 parentDef sel seen
      = walkSelection schema doc obs fuel parentDef sel seen := by
  induction hle with
  | refl => rfl
  | step _ ih =>
    rw [walkSelection_fuel_succ schema doc obs _ _ _ _ (by rw [ih]; exact h), ih]

theorem walkSelections_walkSelection_ne_outOfFuel (schema : Schema) (doc : QueryDocument)
    (obs : Events κ) (D : Nat)
    (hD : ∀ f ∈ doc.Fragments, Selection.depthList f.SelectionSet ≤ D) (fuel : Nat)
    (next : Option Definition) (sels : List Selection) (seen : List String)
    (h : doc.unexpanded seen * (D + 1) + Selection.depthList sels + 1 ≤ fuel) :
    walkSelections (walkSelection schema doc obs fuel next) sels seen ≠ .outOfFuel := by
  apply walkSelections_ne_outOfFuel seen (walkSelection_grows schema doc obs fuel next) sels
    _ seen (Grows.refl _)
  intro s hs seenB hg
  apply walkSelection_ne_outOfFuel schema doc obs D hD
  have h1 := Selection.depth_le_depthList hs
  have h2 := Nat.mul_le_mul_right (D + 1) (doc.unexpanded_le hg)
  omega

theorem walkSelections_walkSelection_fuel_le (schema : Schema) (doc : QueryDocument)
    (obs : Events κ) {fuel fuel1 : Nat} (hle : fuel ≤ fuel1) (next : Option Definition)
    (sels : List Selection) (seen : List String)
    (h : walkSelections (walkSelection schema doc obs fuel next) sels seen ≠ .outOfFuel) :
    walkSelections (walkSelection schema doc obs fuel1 next) sels seen
      = walkSelections (walkSelection schema doc obs fuel next) sels seen :=
  walkSelections_congr (fun sel s hs => walkSelection_fuel_le schema doc obs hle next sel s hs)
    sels seen h

theorem walkSelections_walkSelection_noPanic (schema : Schema) (doc : QueryDocument)
    (obs : Events κ) (hF : ∀ f ∈ doc.Fragments, Selection.SupportedList f.SelectionSet = true)
    (fuel : Nat) (next : Option Definition) (sels : List Selection) (seen : List String)
    (h : Selection.SupportedList sels = true) :
    (walkSelections (walkSelection schema doc obs fuel next) sels seen).noPanic :=
  walkSelections_noPanic sels
    (fun s hm seenB => walkSelection_noPanic schema doc obs hF fuel next s seenB
      ((Selection.supportedList_iff sels).1 h s hm)) seen

theorem le_foldr_max {l : List Nat} {a : Nat} (h : a ∈ l) : a ≤ l.foldr max 0 := by
  induction l with
  | nil => simp at h
  | cons b rest ih =>
    simp only [List.foldr_cons]
    rcases List.mem_cons.1 h with h1 | h1
    · subst h1; exact le_max_left _ _
    · exact le_trans (ih h1) (le_max_right _ _)

theorem QueryDocument.operation_depth_le {doc : QueryDocument} {o : OperationDefinition}
    (h : o ∈ doc.Operations) : Selection.depthList o.SelectionSet ≤ doc.depth :=
  le_trans (le_foldr_max (List.mem_map.2 ⟨o, h, rfl⟩)) (le_max_left _ _)

theorem QueryDocument.fragment_depth_le {doc : QueryDocument} {f : FragmentDefinition}
    (h : f ∈ doc.Fragments) : Selection.depthList f.SelectionSet ≤ doc.depth :=
  le_trans (le_foldr_max (List.mem_map.2 ⟨f, h, rfl⟩)) (le_max_right _ _)

theorem QueryDocument.fuel_suffices (doc : QueryDocument) {sels : List Selection}
    (h : Selection.depthList sels ≤ doc.depth) :
    doc.unexpanded [] * (doc.depth + 1) + Selection.depthList sels + 1 ≤ doc.fuel := by
  unfold QueryDocument.fuel
  rw [Nat.add_mul]
  omega

/-! ## Roots -/

theorem walkOperation_eq_ok (schema : Schema) (doc : QueryDocument) (obs : Events κ)
    (hs : doc.Supported = true) {fuel : Nat} (hf : doc.fuel ≤ fuel)
    {o : OperationDefinition} (ho : o ∈ doc.Operations) :
    (∃ t seen, walkOperation schema doc obs fuel o [] = .ok t seen) ∧
      walkOperation schema doc obs fuel o [] = walkOperation schema doc obs doc.fuel o [] := by
  simp only [QueryDocument.Supported, Bool.and_eq_true, List.all_eq_true] at hs
  have h1 := walkSelections_walkSelection_ne_outOfFuel schema doc obs doc.depth
    (fun f hm => QueryDocument.fragment_depth_le hm) doc.fuel
    (operationRoot schema o.Operation).1 o.SelectionSet []
    (doc.fuel_suffices (QueryDocument.operation_depth_le ho))
  have h2 := walkSelections_walkSelection_fuel_le schema doc obs hf _ _ _ h1
  have h3 := walkSelections_walkSelection_noPanic schema doc obs hs.2 doc.fuel
    (operationRoot schema o.Operation).1 o.SelectionSet [] (hs.1 o ho)
  obtain ⟨t, seen, e⟩ := Res.eq_ok_of h1 h3
  simp only [walkOperation, h2]
  exact ⟨⟨_, seen, by rw [e]; rfl⟩, trivial⟩

theorem walkFragment_eq_ok (schema : Schema) (doc : QueryDocument) (obs : Events κ)
    (hs : doc.Supported = true) {fuel : Nat} (hf : doc.fuel ≤ fuel)
    {f : FragmentDefinition} (hm : f ∈ doc.Fragments) :
    (∃ t seen, walkFragment schema doc obs fuel f [] = .ok t seen) ∧
      walkFragment schema doc obs fuel f [] = walkFragment schema doc obs doc.fuel f [] := by
  simp only [QueryDocument.Supported, Bool.and_eq_true, List.all_eq_true] at hs
  have h1 := walkSelections_walkSelection_ne_outOfFuel schema doc obs doc.depth
    (fun f hm => QueryDocument.fragment_depth_le hm) doc.fuel
    (schema.Types f.TypeCondition) f.SelectionSet []
    (doc.fuel_suffices (QueryDocument.fragment_depth_le hm))
  have h2 := walkSelections_walkSelection_fuel_le schema doc obs hf _ _ _ h1
  have h3 := walkSelections_walkSelection_noPanic schema doc obs hs.2 doc.fuel
    (schema.Types f.TypeCondition) f.SelectionSet [] (hs.2 f hm)
  obtain ⟨t, seen, e⟩ := Res.eq_ok_of h1 h3
  simp only [walkFragment, h2]
  exact ⟨⟨_, seen, by rw [e]; rfl⟩, trivial⟩

theorem walkRoots_eq_ok {α : Type} {walkRoot : α → List String → Res κ} :
    ∀ xs : List α, (∀ x ∈ xs, ∃ t s, walkRoot x [] = .ok t s) →
      ∀ seen, ∃ s, walkRoots walkRoot xs seen
        = .ok (xs.flatMap fun x => (walkRoot x []).trace) s := by
  intro xs
  induction xs with
  | nil => intro _ seen; exact ⟨seen, rfl⟩
  | cons x rest ih =>
    intro h seen
    obtain ⟨t, s, e⟩ := h x (List.mem_cons_self _ _)
    obtain ⟨s1, e1⟩ := ih (fun y hy => h y (List.mem_cons_of_mem _ hy)) s
    refine ⟨s1, ?_⟩
    simp only [walkRoots, e, Res.andThen_ok, e1, Res.after_ok, List.flatMap_cons, Res.trace]

theorem walkRoots_congr {α : Type} {walkA walkB : α → List String → Res κ} :
    ∀ xs : List α, (∀ x ∈ xs, walkA x [] = walkB x []) →
      ∀ seen, walkRoots walkA xs seen = walkRoots walkB xs seen := by
  intro xs
  induction xs with
  | nil => intro _ seen; rfl
  | cons x rest ih =>
    intro h seen
    simp only [walkRoots, h x (List.mem_cons_self _ _)]
    congr 1
    funext s
    exact ih (fun y hy => h y (List.mem_cons_of_mem _ hy)) s

theorem Walker.walk_fuel_le (schema : Schema) (doc : QueryDocument) (obs : Events κ)
    (hs : doc.Supported = true) {fuel : Nat} (hf : doc.fuel ≤ fuel) :
    Walker.walk schema doc obs fuel = Walker.walk schema doc obs doc.fuel := by
  unfold Walker.walk
  rw [walkRoots_congr doc.Operations
    (fun o ho => (walkOperation_eq_ok schema doc obs hs hf ho).2) []]
  congr 1
  funext s
  exact walkRoots_congr doc.Fragments
    (fun f hm => (walkFragment_eq_ok schema doc obs hs hf hm).2) s

/-- The trace of `Walk` on a supported document: the traces of the roots,
operations first, each walked from the empty set. -/
theorem Walk_eq_ok (schema : Schema) (doc : QueryDocument) (obs : Events κ)
    (hs : doc.Supported = true) :
    ∃ seen, Walk schema doc obs = .ok
      ((doc.Operations.flatMap fun o => (walkOperation schema doc obs doc.fuel o []).trace)
        ++ doc.Fragments.flatMap fun f => (walkFragment schema doc obs doc.fuel f []).trace)
      seen := by
  obtain ⟨s1, e1⟩ := @walkRoots_eq_ok κ OperationDefinition (walkOperation schema doc obs doc.fuel)
    doc.Operations (fun o ho => (walkOperation_eq_ok schema doc obs hs le_rfl ho).1) []
  obtain ⟨s2, e2⟩ := @walkRoots_eq_ok κ FragmentDefinition (walkFragment schema doc obs doc.fuel)
    doc.Fragments (fun f hm => (walkFragment_eq_ok schema doc obs hs le_rfl hm).1) s1
  exact ⟨s2, by simp only [Walk, Walker.walk, e1, Res.andThen_ok, e2, Res.after_ok]⟩

/-! ## Directive, argument and value walks invoke no selection callback -/

mutual
theorem walkValue_isSelection (schema : Schema) (obs : Events κ) :
    ∀ (valueType : Option GType) (value : Value),
      ∀ e ∈ walkValue schema obs valueType value, e.isSelection = false
  | valueType, .ObjectValue fields => by
    intro e he
    simp only [walkValue, List.mem_append, List.mem_map] at he
    rcases he with ⟨v, -, rfl⟩ | he
    · rfl
    · exact walkObjectFields_isSelection schema obs _ fields e he
  | valueType, .ScalarValue raw => by
    intro e he
    simp only [walkValue, List.mem_map] at he
    obtain ⟨v, -, rfl⟩ := he
    rfl
  | valueType, .Variable name => by
    intro e he
    simp only [walkValue, List.mem_map] at he
    obtain ⟨v, -, rfl⟩ := he
    rfl
  | valueType, .ListValue elems => by
    intro e he
    simp only [walkValue, List.mem_map] at he
    obtain ⟨v, -, rfl⟩ := he
    rfl
theorem walkObjectFields_isSelection (schema : Schema) (obs : Events κ) :
    ∀ (defn : Option Definition) (fields : List (String × Value)),
      ∀ e ∈ walkObjectFields schema obs defn fields, e.isSelection = false
  | defn, [] => by
    intro e he
    simp [walkObjectFields] at he
  | defn, (name, nested) :: rest => by
    intro e he
    simp only [walkObjectFields, List.mem_append] at he
    rcases he with he | he
    · exact walkValue_isSelection schema obs _ nested e he
    · exact walkObjectFields_isSelection schema obs defn rest e he
end

theorem walkArguments_isSelection (schema : Schema) (obs : Events κ)
    (args : Option (List FieldDefinition)) (arguments : List Argument) :
    ∀ e ∈ walkArguments schema obs args arguments, e.isSelection = false := by
  intro e he
  simp only [walkArguments, List.mem_flatMap, walkArgument, List.mem_append, List.mem_map] at he
  obtain ⟨arg, -, ⟨v, -, rfl⟩ | he⟩ := he
  · rfl
  · exact walkValue_isSelection schema obs _ _ e he

theorem walkDirectives_isSelection (schema : Schema) (obs : Events κ)
    (parentDef : Option Definition) (directives : List Directive)
    (location : DirectiveLocation) :
    ∀ e ∈ walkDirectives schema obs parentDef directives location, e.isSelection = false := by
  intro e he
  simp only [walkDirectives, List.mem_append, List.mem_map, List.mem_flatMap] at he
  rcases he with ⟨v, -, rfl⟩ | ⟨dir, -, ⟨v, -, rfl⟩ | he⟩
  · rfl
  · rfl
  · exact walkArguments_isSelection schema obs _ _ e he

theorem Event.isFragmentSpread_le (e : Event κ) (h : e.isSelection = false) :
    e.isFragmentSpread = false := by
  cases e <;> simp_all [Event.isSelection, Event.isFragmentSpread]

/-! ## Termination -/

/-- C1: on every schema and every document whose selections are fields,
inline fragments and fragment spreads, `Walk` terminates with a result,
also when fragments form a cycle; the result is the same for every larger
nesting allowance, and a nesting allowance linear in the number of fragment
names not yet in the expanded set is enough for `walkSelection`. -/
theorem Walk_terminates (schema : Schema) (doc : QueryDocument) (obs : Events κ)
    (h : doc.Supported = true) :
    (∃ t seen, Walk schema doc obs = .ok t seen) ∧
    (∀ fuel, doc.fuel ≤ fuel → Walker.walk schema doc obs fuel = Walk schema doc obs) ∧
    (∀ fuel parentDef sel seen, sel.Supported = true →
      doc.unexpanded seen * (doc.depth + 1) + sel.depth + 1 ≤ fuel →
      ∃ t seen1, walkSelection schema doc obs fuel parentDef sel seen = .ok t seen1) := by
  refine ⟨?_, ?_, ?_⟩
  · obtain ⟨seen, e⟩ := Walk_eq_ok schema doc obs h
    exact ⟨_, seen, e⟩
  · intro fuel hf
    exact Walker.walk_fuel_le schema doc obs h hf
  · intro fuel parentDef sel seen hs hf
    have hF : ∀ f ∈ doc.Fragments, Selection.SupportedList f.SelectionSet = true := by
      simp only [QueryDocument.Supported, Bool.and_eq_true, List.all_eq_true] at h
      exact h.2
    exact Res.eq_ok_of
      (walkSelection_ne_outOfFuel schema doc obs doc.depth
        (fun f hm => QueryDocument.fragment_depth_le hm) fuel parentDef sel seen hf)
      (walkSelection_noPanic schema doc obs hF fuel parentDef sel seen hs)

/-- Witness of C1 on the cyclic document. -/
theorem Walk_terminates_witness :
    cyclicDocument.Supported = true ∧
      ∃ t seen, Walk emptySchema cyclicDocument selectionObservers = .ok t seen :=
  ⟨rfl, (Walk_terminates emptySchema cyclicDocument selectionObservers rfl).1⟩

/-! ## Fragment spreads -/

theorem walkSelection_spread_expanded (schema : Schema) (doc : QueryDocument)
    (obs : Events κ) (fuel : Nat) (parentDef : Option Definition) (name : String)
    (directives : List Directive) (seen : List String)
    (h : doc.GetFragment name = none ∨ ∃ d, doc.GetFragment name = some d ∧ d.Name ∈ seen) :
    walkSelection schema doc obs (fuel + 1) parentDef (.FragmentSpread name directives) seen
      = .ok
        (obs.fragmentSpread.map
            (fun v => Event.fragmentSpread v parentDef (doc.GetFragment name)
              (.FragmentSpread name directives))
          ++ walkDirectives schema obs
              ((doc.GetFragment name).bind fun d => schema.Types d.TypeCondition)
              directives .LocationFragmentSpread)
        seen := by
  simp only [walkSelection]
  rcases h with h | ⟨d, h, hm⟩
  · rw [h]
  · rw [h]; simp [hm]

theorem walkSelection_spread_descend (schema : Schema) (doc : QueryDocument)
    (obs : Events κ) (fuel : Nat) (parentDef : Option Definition) (name : String)
    (directives : List Directive) (seen : List String) (d : FragmentDefinition)
    (h : doc.GetFragment name = some d) (hm : d.Name ∉ seen) :
    walkSelection schema doc obs (fuel + 1) parentDef (.FragmentSpread name directives) seen
      = (walkSelections (walkSelection schema doc obs fuel (schema.Types d.TypeCondition))
          d.SelectionSet (d.Name :: seen)).after
        (obs.fragmentSpread.map
            (fun v => Event.fragmentSpread v parentDef (some d)
              (.FragmentSpread name directives))
          ++ walkDirectives schema obs (schema.Types d.TypeCondition)
              directives .LocationFragmentSpread) := by
  simp only [walkSelection]
  rw [h]
  simp [hm]

theorem walkOperation_grows (schema : Schema) (doc : QueryDocument) (obs : Events κ)
    (fuel : Nat) (o : OperationDefinition) (seen : List String) (t : List (Event κ))
    (seen1 : List String) (h : walkOperation schema doc obs fuel o seen = .ok t seen1) :
    Grows seen seen1 := by
  simp only [walkOperation] at h
  obtain ⟨ta, sa, tb, ha, hb, -⟩ := Res.andThen_eq_ok h
  obtain ⟨tc, hc, -⟩ := Res.after_eq_ok ha
  simp at hb
  rw [← hb.2]
  exact walkSelections_grows (walkSelection_grows schema doc obs fuel _) _ _ _ _ hc

theorem walkFragment_grows (schema : Schema) (doc : QueryDocument) (obs : Events κ)
    (fuel : Nat) (f : FragmentDefinition) (seen : List String) (t : List (Event κ))
    (seen1 : List String) (h : walkFragment schema doc obs fuel f seen = .ok t seen1) :
    Grows seen seen1 := by
  simp only [walkFragment] at h
  obtain ⟨tc, hc, -⟩ := Res.after_eq_ok h
  exact walkSelections_grows (walkSelection_grows schema doc obs fuel _) _ _ _ _ hc

theorem perm_append_swap_tail {α : Type} {a t x y d : List α} (hp : t.Perm (x ++ y)) :
    (a ++ t ++ d).Perm (a ++ x ++ d ++ y) := by
  rw [← Multiset.coe_eq_coe] at hp ⊢
  simp only [← Multiset.coe_add] at hp ⊢
  rw [hp]
  abel

theorem walkSelections_ownTrace (schema : Schema) (doc : QueryDocument) (obs : Events κ)
    {walkOne : Selection → List String → Res κ} (parentDef : Option Definition) :
    ∀ sels : List Selection,
      (∀ sel ∈ sels, ∀ seen t seen1, walkOne sel seen = .ok t seen1 →
        ∃ new, seen1 = new ++ seen
          ∧ t.Perm (sel.ownTrace schema doc obs parentDef
              ++ new.flatMap (doc.bodyTrace schema obs))) →
      ∀ seen t seen1, walkSelections walkOne sels seen = .ok t seen1 →
        ∃ new, seen1 = new ++ seen
          ∧ t.Perm (Selection.ownTraceList schema doc obs parentDef sels
              ++ new.flatMap (doc.bodyTrace schema obs)) := by
  intro sels
  induction sels with
  | nil =>
    intro _ seen t seen1 h
    simp only [walkSelections, Res.ok.injEq] at h
    obtain ⟨rfl, rfl⟩ := h
    exact ⟨[], rfl, by simp [Selection.ownTraceList]⟩
  | cons sel rest ih =>
    intro h1 seen t seen1 h
    simp only [walkSelections] at h
    obtain ⟨ta, sa, tb, ha, hb, rfl⟩ := Res.andThen_eq_ok h
    obtain ⟨newA, rfl, pA⟩ := h1 sel (List.mem_cons_self _ _) _ _ _ ha
    obtain ⟨newB, rfl, pB⟩ := ih (fun x hx => h1 x (List.mem_cons_of_mem _ hx)) _ _ _ hb
    refine ⟨newB ++ newA, by simp, ?_⟩
    simp only [Selection.ownTraceList, List.flatMap_append]
    rw [← Multiset.coe_eq_coe] at pA pB ⊢
    simp only [← Multiset.coe_add] at pA pB ⊢
    rw [pA, pB]
    abel

/-- The trace of a completed walk of a selection is, up to the order of
the events, the callbacks of the selection itself together with, for each
name added to the expanded set, the callbacks of the selection set of the
fragment of that name, once. -/
theorem walkSelection_ownTrace (schema : Schema) (doc : QueryDocument) (obs : Events κ) :
    ∀ fuel parentDef sel seen t seen1,
      walkSelection schema doc obs fuel parentDef sel seen = .ok t seen1 →
      ∃ new, seen1 = new ++ seen
        ∧ t.Perm (sel.ownTrace schema doc obs parentDef
            ++ new.flatMap (doc.bodyTrace schema obs)) := by
  intro fuel
  induction fuel with
  | zero => intro parentDef sel seen t seen1 h; simp [walkSelection] at h
  | succ fuel ih =>
    intro parentDef sel seen t seen1 h
    cases sel with
    | Field name arguments directives selectionSet =>
      simp only [walkSelection] at h
      obtain ⟨ta, sa, tb, ha, hb, rfl⟩ := Res.andThen_eq_ok h
      obtain ⟨tc, hc, rfl⟩ := Res.after_eq_ok ha
      simp only [Res.ok.injEq] at hb
      obtain ⟨rfl, rfl⟩ := hb
      obtain ⟨new, rfl, p⟩ := walkSelections_ownTrace schema doc obs _ selectionSet
        (fun x _ => ih _ x) _ _ _ hc
      refine ⟨new, rfl, ?_⟩
      simp only [Selection.ownTrace]
      exact perm_append_swap_tail p
    | InlineFragment typeCondition directives selectionSet =>
      simp only [walkSelection] at h
      obtain ⟨tc, hc, rfl⟩ := Res.after_eq_ok h
      obtain ⟨new, rfl, p⟩ := walkSelections_ownTrace schema doc obs _ selectionSet
        (fun x _ => ih _ x) _ _ _ hc
      refine ⟨new, rfl, ?_⟩
      simp only [Selection.ownTrace]
      exact List.Perm.trans (List.Perm.append_left _ p) (by simp only [List.append_assoc]; exact List.Perm.refl _)
    | FragmentSpread name directives =>
      cases hd : doc.GetFragment name with
      | none =>
        rw [walkSelection_spread_expanded schema doc obs fuel parentDef name directives seen
          (Or.inl hd)] at h
        simp only [Res.ok.injEq] at h
        obtain ⟨rfl, rfl⟩ := h
        exact ⟨[], rfl, by simp [Selection.ownTrace]⟩
      | some d =>
        by_cases hm : d.Name ∈ seen
        · rw [walkSelection_spread_expanded schema doc obs fuel parentDef name directives seen
            (Or.inr ⟨d, hd, hm⟩)] at h
          simp only [Res.ok.injEq] at h
          obtain ⟨rfl, rfl⟩ := h
          exact ⟨[], rfl, by simp [Selection.ownTrace]⟩
        · rw [walkSelection_spread_descend schema doc obs fuel parentDef name directives seen
            d hd hm] at h
          obtain ⟨tc, hc, rfl⟩ := Res.after_eq_ok h
          obtain ⟨new, rfl, p⟩ := walkSelections_ownTrace schema doc obs _ d.SelectionSet
            (fun x _ => ih _ x) _ _ _ hc
          have hname : doc.GetFragment d.Name = some d := by
            rw [(QueryDocument.getFragment_mem hd).2]; exact hd
          refine ⟨new ++ [d.Name], by simp, ?_⟩
          have hbody : doc.bodyTrace schema obs d.Name
              = Selection.ownTraceList schema doc obs (schema.Types d.TypeCondition)
                  d.SelectionSet := by
            simp only [QueryDocument.bodyTrace, hname]
          simp only [Selection.ownTrace, hd, Option.some_bind, List.flatMap_append,
            List.flatMap_cons, List.flatMap_nil, List.append_nil, hbody]
          rw [← Multiset.coe_eq_coe] at p ⊢
          simp only [← Multiset.coe_add] at p ⊢
          rw [p]
          abel
    | Unsupported => simp [walkSelection] at h

theorem walkSelections_walkSelection_ownTrace (schema : Schema) (doc : QueryDocument)
    (obs : Events κ) (fuel : Nat) (parentDef : Option Definition) (sels : List Selection)
    (seen : List String) (t : List (Event κ)) (seen1 : List String)
    (h : walkSelections (walkSelection schema doc obs fuel parentDef) sels seen
      = .ok t seen1) :
    ∃ new, seen1 = new ++ seen
      ∧ t.Perm (Selection.ownTraceList schema doc obs parentDef sels
          ++ new.flatMap (doc.bodyTrace schema obs)) :=
  walkSelections_ownTrace schema doc obs parentDef sels
    (fun x _ => walkSelection_ownTrace schema doc obs fuel parentDef x) seen t seen1 h

theorem walkSelections_expanded {walkOne : Selection → List String → Res κ}
    {own : Selection → List (Event κ)} (seen : List String) :
    ∀ sels : List Selection,
      (∀ sel ∈ sels, ∀ t seen1, walkOne sel seen = .ok t seen1 →
        seen1 = seen ∧ t = own sel) →
      ∀ t seen1, walkSelections walkOne sels seen = .ok t seen1 →
        seen1 = seen ∧ t = sels.flatMap own := by
  intro sels
  induction sels with
  | nil =>
    intro _ t seen1 h
    simp only [walkSelections, Res.ok.injEq] at h
    exact ⟨h.2.symm, by simp [h.1.symm]⟩
  | cons sel rest ih =>
    intro h1 t seen1 h
    simp only [walkSelections] at h
    obtain ⟨ta, sa, tb, ha, hb, rfl⟩ := Res.andThen_eq_ok h
    obtain ⟨rfl, rfl⟩ := h1 sel (List.mem_cons_self _ _) _ _ ha
    obtain ⟨rfl, rfl⟩ := ih (fun x hx => h1 x (List.mem_cons_of_mem _ hx)) _ _ hb
    exact ⟨rfl, by simp⟩

theorem Selection.ownTraceList_eq_flatMap (schema : Schema) (doc : QueryDocument)
    (obs : Events κ) (parentDef : Option Definition) (sels : List Selection) :
    Selection.ownTraceList schema doc obs parentDef sels
      = sels.flatMap (Selection.ownTrace schema doc obs parentDef) := by
  induction sels with
  | nil => rfl
  | cons s rest ih => simp only [Selection.ownTraceList, ih, List.flatMap_cons]

/-- When every fragment name of the document is in the expanded set, a
completed walk of a selection descends into no fragment: its trace is the
callbacks of the selection itself and the set is left as it is. -/
theorem walkSelection_expanded (schema : Schema) (doc : QueryDocument) (obs : Events κ)
    (seen : List String) (hall : ∀ d ∈ doc.Fragments, d.Name ∈ seen) :
    ∀ fuel parentDef sel t seen1,
      walkSelection schema doc obs fuel parentDef sel seen = .ok t seen1 →
      seen1 = seen ∧ t = sel.ownTrace schema doc obs parentDef := by
  intro fuel
  induction fuel with
  | zero => intro parentDef sel t seen1 h; simp [walkSelection] at h
  | succ fuel ih =>
    intro parentDef sel t seen1 h
    cases sel with
    | Field name arguments directives selectionSet =>
      simp only [walkSelection] at h
      obtain ⟨ta, sa, tb, ha, hb, rfl⟩ := Res.andThen_eq_ok h
      obtain ⟨tc, hc, rfl⟩ := Res.after_eq_ok ha
      simp only [Res.ok.injEq] at hb
      obtain ⟨rfl, rfl⟩ := hb
      obtain ⟨rfl, rfl⟩ := walkSelections_expanded seen selectionSet
        (fun x _ => ih _ x) _ _ hc
      exact ⟨rfl, by simp only [Selection.ownTrace, Selection.ownTraceList_eq_flatMap]⟩
    | InlineFragment typeCondition directives selectionSet =>
      simp only [walkSelection] at h
      obtain ⟨tc, hc, rfl⟩ := Res.after_eq_ok h
      obtain ⟨rfl, rfl⟩ := walkSelections_expanded seen selectionSet
        (fun x _ => ih _ x) _ _ hc
      exact ⟨rfl, by simp only [Selection.ownTrace, Selection.ownTraceList_eq_flatMap]⟩
    | FragmentSpread name directives =>
      have hexp : doc.GetFragment name = none
          ∨ ∃ d, doc.GetFragment name = some d ∧ d.Name ∈ seen := by
        cases hd : doc.GetFragment name with
        | none => exact Or.inl rfl
        | some d => exact Or.inr ⟨d, rfl, hall d (QueryDocument.getFragment_mem hd).1⟩
      rw [walkSelection_spread_expanded schema doc obs fuel parentDef name directives seen
        hexp] at h
      simp only [Res.ok.injEq] at h
      exact ⟨h.2.symm, by simp only [Selection.ownTrace, h.1]⟩
    | Unsupported => simp [walkSelection] at h

/-- C2: a fragment spread that does not resolve, or whose fragment name is
in the expanded set, does not descend and leaves the set as it is; one
that resolves to a name outside the set descends from the set with the
name added; a completed walk only adds names to the set, none twice; with
every fragment name in the set a walk descends nowhere and invokes the
callbacks of the selection itself; and the trace of a completed walk is,
up to the order of the events, the callbacks of the walked selections
themselves together with, for each name added to the set, the callbacks of
the selection set of that fragment once.  For a root traversal, started
from the empty set, the final set is duplicate-free and the trace holds the
callbacks of each fragment's selection set once per name of that set:
within one root no fragment is descended into twice, however many spreads
name it. -/
theorem fragment_expanded_at_most_once (schema : Schema) (doc : QueryDocument)
    (obs : Events κ) (fuel : Nat) (parentDef : Option Definition) :
    (∀ name directives seen,
      (doc.GetFragment name = none ∨ ∃ d, doc.GetFragment name = some d ∧ d.Name ∈ seen) →
      walkSelection schema doc obs (fuel + 1) parentDef (.FragmentSpread name directives) seen
        = .ok
          (obs.fragmentSpread.map
              (fun v => Event.fragmentSpread v parentDef (doc.GetFragment name)
                (.FragmentSpread name directives))
            ++ walkDirectives schema obs
                ((doc.GetFragment name).bind fun d => schema.Types d.TypeCondition)
                directives .LocationFragmentSpread)
          seen) ∧
    (∀ name directives seen d, doc.GetFragment name = some d → d.Name ∉ seen →
      walkSelection schema doc obs (fuel + 1) parentDef (.FragmentSpread name directives) seen
        = (walkSelections (walkSelection schema doc obs fuel (schema.Types d.TypeCondition))
            d.SelectionSet (d.Name :: seen)).after
          (obs.fragmentSpread.map
              (fun v => Event.fragmentSpread v parentDef (some d)
                (.FragmentSpread name directives))
            ++ walkDirectives schema obs (schema.Types d.TypeCondition)
                directives .LocationFragmentSpread)) ∧
    (∀ sel seen t seen1,
      walkSelection schema doc obs fuel parentDef sel seen = .ok t seen1 →
      seen <:+ seen1 ∧ (seen.Nodup → seen1.Nodup)) ∧
    (∀ o t seen1, walkOperation schema doc obs fuel o [] = .ok t seen1 → seen1.Nodup) ∧
    (∀ f t seen1, walkFragment schema doc obs fuel f [] = .ok t seen1 → seen1.Nodup) ∧
    (∀ sel seen t seen1, (∀ d ∈ doc.Fragments, d.Name ∈ seen) →
      walkSelection schema doc obs fuel parentDef sel seen = .ok t seen1 →
      seen1 = seen ∧ t = sel.ownTrace schema doc obs parentDef) ∧
    (∀ sel seen t seen1,
      walkSelection schema doc obs fuel parentDef sel seen = .ok t seen1 →
      ∃ new, seen1 = new ++ seen
        ∧ t.Perm (sel.ownTrace schema doc obs parentDef
            ++ new.flatMap (doc.bodyTrace schema obs))) ∧
    (∀ (o : OperationDefinition) t seen1,
      walkOperation schema doc obs fuel o [] = .ok t seen1 →
      seen1.Nodup
        ∧ t.Perm
          (obs.operationVisitor.map (fun v => Event.operation v o)
            ++ walkDirectives schema obs (operationRoot schema o.Operation).1 o.Directives
                (operationRoot schema o.Operation).2
            ++ walkVariableDefinitions schema obs o.VariableDefinitions
            ++ Selection.ownTraceList schema doc obs (operationRoot schema o.Operation).1
                o.SelectionSet
            ++ seen1.flatMap (doc.bodyTrace schema obs)
            ++ obs.operationLeaveVisitor.map fun v => Event.operationLeave v o)) ∧
    (∀ (f : FragmentDefinition) t seen1,
      walkFragment schema doc obs fuel f [] = .ok t seen1 →
      seen1.Nodup
        ∧ t.Perm
          (walkDirectives schema obs (schema.Types f.TypeCondition) f.Directives
              .LocationFragmentDefinition
            ++ obs.fragment.map (fun v => Event.fragment v (schema.Types f.TypeCondition) f)
            ++ Selection.ownTraceList schema doc obs (schema.Types f.TypeCondition)
                f.SelectionSet
            ++ seen1.flatMap (doc.bodyTrace schema obs))) := by
  refine ⟨?_, ?_, ?_, ?_, ?_, ?_, ?_, ?_, ?_⟩
  · intro name directives seen h
    exact walkSelection_spread_expanded schema doc obs fuel parentDef name directives seen h
  · intro name directives seen d h hm
    exact walkSelection_spread_descend schema doc obs fuel parentDef name directives seen d h hm
  · intro sel seen t seen1 h
    exact walkSelection_grows schema doc obs fuel parentDef sel seen t seen1 h
  · intro o t seen1 h
    exact (walkOperation_grows schema doc obs fuel o [] t seen1 h).2 List.nodup_nil
  · intro f t seen1 h
    exact (walkFragment_grows schema doc obs fuel f [] t seen1 h).2 List.nodup_nil
  · intro sel seen t seen1 hall h
    exact walkSelection_expanded schema doc obs seen hall fuel parentDef sel t seen1 h
  · intro sel seen t seen1 h
    exact walkSelection_ownTrace schema doc obs fuel parentDef sel seen t seen1 h
  · intro o t seen1 h
    refine ⟨(walkOperation_grows schema doc obs fuel o [] t seen1 h).2 List.nodup_nil, ?_⟩
    simp only [walkOperation] at h
    obtain ⟨ta, sa, tb, ha, hb, rfl⟩ := Res.andThen_eq_ok h
    obtain ⟨tc, hc, rfl⟩ := Res.after_eq_ok ha
    simp only [Res.ok.injEq] at hb
    obtain ⟨rfl, rfl⟩ := hb
    obtain ⟨new, e, p⟩ := walkSelections_walkSelection_ownTrace schema doc obs fuel _ _ _ _ _ hc
    rw [List.append_nil] at e
    subst e
    rw [← Multiset.coe_eq_coe] at p ⊢
    simp only [← Multiset.coe_add] at p ⊢
    rw [p]
    abel
  · intro f t seen1 h
    refine ⟨(walkFragment_grows schema doc obs fuel f [] t seen1 h).2 List.nodup_nil, ?_⟩
    simp only [walkFragment] at h
    obtain ⟨tc, hc, rfl⟩ := Res.after_eq_ok h
    obtain ⟨new, e, p⟩ := walkSelections_walkSelection_ownTrace schema doc obs fuel _ _ _ _ _ hc
    rw [List.append_nil] at e
    subst e
    exact List.Perm.trans (List.Perm.append_left _ p)
      (by simp only [List.append_assoc]; exact List.Perm.refl _)

/-- Witness of C2: the root traversal of `{ ... { ...F } ...F }` with
`fragment F on Pet { name }`; the fragment is spread twice, once inside an
inline fragment, and its field `name` is walked once. -/
theorem fragment_expanded_at_most_once_witness :
    walkOperation petSchema nestedSpreadDocument selectionObservers 4
        (anonymousOperation
          [.InlineFragment "" [] [.FragmentSpread "F" []], .FragmentSpread "F" []]) []
      = .ok
        [ .fragmentSpread 1 none (nestedSpreadDocument.GetFragment "F")
            (.FragmentSpread "F" []),
          .field 0 (petSchema.Types "Pet") (some (.mk "name" [] (.NamedType "String")))
            (.Field "name" [] [] []),
          .fragmentSpread 1 petSchema.Query (nestedSpreadDocument.GetFragment "F")
            (.FragmentSpread "F" []) ]
        ["F"]
    ∧ (["F"] : List String).Nodup
    ∧ List.Perm
        [ Event.fragmentSpread 1 none (nestedSpreadDocument.GetFragment "F")
            (.FragmentSpread "F" []),
          .field 0 (petSchema.Types "Pet") (some (.mk "name" [] (.NamedType "String")))
            (.Field "name" [] [] []),
          .fragmentSpread 1 petSchema.Query (nestedSpreadDocument.GetFragment "F")
            (.FragmentSpread "F" []) ]
        [ Event.fragmentSpread 1 none (nestedSpreadDocument.GetFragment "F")
            (.FragmentSpread "F" []),
          .fragmentSpread 1 petSchema.Query (nestedSpreadDocument.GetFragment "F")
            (.FragmentSpread "F" []),
          .field 0 (petSchema.Types "Pet") (some (.mk "name" [] (.NamedType "String")))
            (.Field "name" [] [] []) ] :=
  ⟨rfl,
    (fragment_expanded_at_most_once petSchema nestedSpreadDocument selectionObservers 4
      none).2.2.2.2.2.2.2.1
      (anonymousOperation
        [.InlineFragment "" [] [.FragmentSpread "F" []], .FragmentSpread "F" []])
      _ ["F"] rfl⟩

/-! ## Fields and inline fragments -/

/-- C3: evaluation of `walkSelection` on the inline fragment `... { name }`
(type condition omitted) under the enclosing type `Pet`: the nested field
`name` is walked with an absent parent type and therefore with an absent
field definition, not with `Pet`; with the explicit condition `... on Pet`
it is walked with `Schema.Types["Pet"]` and resolves to `Pet.name`. -/
theorem inlineFragment_without_condition_parent :
    walkSelection petSchema petDocument recordingObservers 2 (petSchema.Types "Pet")
        (.InlineFragment "" [] [.Field "name" [] [] []]) []
      = .ok
        [ .inlineFragment 2 (petSchema.Types "Pet")
            (.InlineFragment "" [] [.Field "name" [] [] []]),
          .directiveList 3 none [] .LocationInlineFragment,
          .field 0 none none (.Field "name" [] [] []),
          .directiveList 3 none [] .LocationField ] []
    ∧ walkSelection petSchema petDocument recordingObservers 2 (petSchema.Types "Pet")
        (.InlineFragment "Pet" [] [.Field "name" [] [] []]) []
      = .ok
        [ .inlineFragment 2 (petSchema.Types "Pet")
            (.InlineFragment "Pet" [] [.Field "name" [] [] []]),
          .directiveList 3 (petSchema.Types "Pet") [] .LocationInlineFragment,
          .field 0 (petSchema.Types "Pet") (some (.mk "name" [] (.NamedType "String")))
            (.Field "name" [] [] []),
          .directiveList 3 none [] .LocationField ] [] :=
  ⟨rfl, rfl⟩

/-- C4: in the trace of a completed walk of a field, the Field callbacks
come first, then the callbacks of the field's arguments, then the whole
trace of its nested selections, and the Directive-List and Directive
callbacks of the field's own directives (location `LocationField`) come
last. -/
theorem field_directives_after_children (schema : Schema) (doc : QueryDocument)
    (obs : Events κ) (fuel : Nat) (parentDef : Option Definition) (name : String)
    (arguments : List Argument) (directives : List Directive) (selectionSet : List Selection)
    (seen : List String) (t : List (Event κ)) (seen1 : List String)
    (h : walkSelection schema doc obs (fuel + 1) parentDef
      (.Field name arguments directives selectionSet) seen = .ok t seen1) :
    ∃ children,
      walkSelections
          (walkSelection schema doc obs fuel
            ((fieldDefinitionFor parentDef name).bind fun d => schema.Types d.Typ.Name))
          selectionSet seen = .ok children seen1
      ∧ t = obs.field.map
              (fun v => Event.field v parentDef (fieldDefinitionFor parentDef name)
                (.Field name arguments directives selectionSet))
            ++ walkArguments schema obs
                ((fieldDefinitionFor parentDef name).map fun d => d.Arguments) arguments
            ++ children
            ++ walkDirectives schema obs
                ((fieldDefinitionFor parentDef name).bind fun d => schema.Types d.Typ.Name)
                directives .LocationField := by
  simp only [walkSelection] at h
  obtain ⟨ta, sa, tb, ha, hb, e⟩ := Res.andThen_eq_ok h
  obtain ⟨tc, hc, e1⟩ := Res.after_eq_ok ha
  simp only [Res.ok.injEq] at hb
  obtain ⟨hb1, hb2⟩ := hb
  subst hb2
  refine ⟨tc, hc, ?_⟩
  rw [e, e1, ← hb1]

/-- Witness of C4: `pet(id: 1) @skip { name }` under `Query`; the
directive callbacks `3`, `4` and the callback `5` of the directive's
argument follow the callbacks of the argument `id` and of the nested field
`name`. -/
theorem field_directives_after_children_witness :
    ∃ children,
      walkSelections
          (walkSelection petSchema petDocument recordingObservers 1
            ((fieldDefinitionFor petSchema.Query "pet").bind
              fun d => petSchema.Types d.Typ.Name))
          [.Field "name" [] [] []] [] = .ok children []
      ∧ [ Event.field 0 petSchema.Query (some (.mk "pet" [] (.NamedType "Pet")))
            (.Field "pet" [⟨"id", .ScalarValue "1"⟩] [⟨"skip", [⟨"if", .ScalarValue "true"⟩]⟩]
              [.Field "name" [] [] []]),
          .argument 5 ⟨"id", .ScalarValue "1"⟩,
          .field 0 (petSchema.Types "Pet") (some (.mk "name" [] (.NamedType "String")))
            (.Field "name" [] [] []),
          .directiveList 3 none [] .LocationField,
          .directiveList 3 (petSchema.Types "Pet") [⟨"skip", [⟨"if", .ScalarValue "true"⟩]⟩]
            .LocationField,
          .directive 4 (petSchema.Types "Pet") none ⟨"skip", [⟨"if", .ScalarValue "true"⟩]⟩
            .LocationField,
          .argument 5 ⟨"if", .ScalarValue "true"⟩ ]
        = List.map
              (fun v => Event.field v petSchema.Query (fieldDefinitionFor petSchema.Query "pet")
                (.Field "pet" [⟨"id", .ScalarValue "1"⟩]
                  [⟨"skip", [⟨"if", .ScalarValue "true"⟩]⟩] [.Field "name" [] [] []]))
              recordingObservers.field
            ++ walkArguments petSchema recordingObservers
                ((fieldDefinitionFor petSchema.Query "pet").map fun d => d.Arguments)
                [⟨"id", .ScalarValue "1"⟩]
            ++ children
            ++ walkDirectives petSchema recordingObservers
                ((fieldDefinitionFor petSchema.Query "pet").bind
                  fun d => petSchema.Types d.Typ.Name)
                [⟨"skip", [⟨"if", .ScalarValue "true"⟩]⟩] .LocationField :=
  field_directives_after_children petSchema petDocument recordingObservers 1 petSchema.Query
    "pet" [⟨"id", .ScalarValue "1"⟩] [⟨"skip", [⟨"if", .ScalarValue "true"⟩]⟩]
    [.Field "name" [] [] []] [] _ [] rfl

/-- C7: whatever the schema and the parent type, a field named `__typename`
is passed to the Field callbacks with the synthetic definition (name
`__typename`, type the named type `String`, no arguments); each of its
arguments is walked with an absent argument definition, and its nested
selections and directives with `Schema.Types["String"]`. -/
theorem typename_field_definition (schema : Schema) (doc : QueryDocument) (obs : Events κ)
    (fuel : Nat) (parentDef : Option Definition) (arguments : List Argument)
    (directives : List Directive) (selectionSet : List Selection) (seen : List String) :
    walkSelection schema doc obs (fuel + 1) parentDef
        (.Field "__typename" arguments directives selectionSet) seen
      = ((walkSelections (walkSelection schema doc obs fuel (schema.Types "String"))
            selectionSet seen).after
          (obs.field.map
              (fun v => Event.field v parentDef
                (some (.mk "__typename" [] (.NamedType "String")))
                (.Field "__typename" arguments directives selectionSet))
            ++ arguments.flatMap fun arg => walkArgument schema obs none arg)).andThen
        fun seen1 =>
          .ok (walkDirectives schema obs (schema.Types "String") directives .LocationField)
            seen1 := by
  simp only [walkSelection]
  rfl

/-- Counterexample to C8 as stated: a field named `__typename` walked with
an absent parent type is passed to the Field callback with the
synthetic definition, not with an absent one. -/
theorem fieldResolvedFromParent_fails_typename :
    ¬ FieldResolvedFromParent emptySchema petDocument recordingObservers 0 none
        "__typename" [] [] [] [] := by
  intro h
  simp [FieldResolvedFromParent, walkSelection, walkSelections, fieldDefinitionFor,
    recordingObservers, walkArguments, walkDirectives] at h

/-- C8, amended: for every field whose name is not `__typename`, walked
with parent type `P`, the Field callbacks receive `(P, fieldDef, field)`
with `fieldDef` the field of that name of `P` (absent if `P` is absent or has
no such field), and the nested selections and the directives are walked
with `Schema.Types[name of fieldDef's declared type]`, absent when
`fieldDef` is; on `Query { pet: Pet }  Pet { name: String }` and
`{ pet { name } }` a Field observer sees `(Query, pet)` and then
`(Pet, name)`. -/
theorem field_resolved_from_parent (schema : Schema) (doc : QueryDocument) (obs : Events κ)
    (fuel : Nat) (parentDef : Option Definition) (name : String) (arguments : List Argument)
    (directives : List Directive) (selectionSet : List Selection) (seen : List String)
    (h : name ≠ "__typename") :
    FieldResolvedFromParent schema doc obs fuel parentDef name arguments directives
        selectionSet seen
    ∧ Walk petSchema petDocument ({ field := [0] } : Events Nat)
      = .ok
        [ .field 0 (petSchema.Types "Query") (some (.mk "pet" [] (.NamedType "Pet")))
            (.Field "pet" [] [] [.Field "name" [] [] []]),
          .field 0 (petSchema.Types "Pet") (some (.mk "name" [] (.NamedType "String")))
            (.Field "name" [] [] []) ] [] := by
  refine ⟨?_, rfl⟩
  simp only [FieldResolvedFromParent, walkSelection, fieldDefinitionFor, if_neg h]

/-- Witness of C8 (amended) on the field `pet` of `{ pet { name } }`. -/
theorem field_resolved_from_parent_witness :
    "pet" ≠ "__typename"
      ∧ FieldResolvedFromParent petSchema petDocument recordingObservers 1 petSchema.Query
          "pet" [] [] [.Field "name" [] [] []] [] :=
  ⟨by decide,
    (field_resolved_from_parent petSchema petDocument recordingObservers 1 petSchema.Query
      "pet" [] [] [.Field "name" [] [] []] [] (by decide)).1⟩

/-! ## Fragment-Spread callbacks -/

theorem walkSelections_spread_repeat (schema : Schema) (doc : QueryDocument)
    (obs : Events κ) (fuel : Nat) (parentDef : Option Definition) (name : String)
    (directives : List Directive) (seen : List String) (d : FragmentDefinition)
    (h : doc.GetFragment name = some d) (hm : d.Name ∈ seen) (k : Nat) :
    walkSelections (walkSelection schema doc obs (fuel + 1) parentDef)
        (List.replicate k (.FragmentSpread name directives)) seen
      = .ok
        (List.replicate k
          (obs.fragmentSpread.map
              (fun v => Event.fragmentSpread v parentDef (some d)
                (.FragmentSpread name directives))
            ++ walkDirectives schema obs (schema.Types d.TypeCondition)
                directives .LocationFragmentSpread)).flatten
        seen := by
  induction k with
  | zero => rfl
  | succ k ih =>
    have e : walkSelection schema doc obs (fuel + 1) parentDef
          (.FragmentSpread name directives) seen
        = .ok
          (obs.fragmentSpread.map
              (fun v => Event.fragmentSpread v parentDef (some d)
                (.FragmentSpread name directives))
            ++ walkDirectives schema obs (schema.Types d.TypeCondition)
                directives .LocationFragmentSpread) seen := by
      have e0 := walkSelection_spread_expanded schema doc obs fuel parentDef name directives
        seen (Or.inr ⟨d, h, hm⟩)
      rw [h] at e0
      exact e0
    simp only [List.replicate_succ, walkSelections, e, Res.andThen_ok, ih, Res.after_ok,
      List.flatten_cons]

/-- C5: every application of `walkSelection` to a fragment spread starts
with one invocation of each Fragment-Spread callback, in registration
order, with (parentType, the fragment the document resolves the name to,
the spread), whatever the expanded set is, and what precedes a descent
holds no other Fragment-Spread invocation; an operation whose selection
set is the same spread `k + 1` times produces that block of invocations
`k + 1` times, the first followed by the one walk of the fragment's
selection set. -/
theorem fragmentSpread_callbacks_per_occurrence (schema : Schema) (doc : QueryDocument)
    (obs : Events κ) (fuel : Nat) (name : String) (directives : List Directive) :
    (∀ parentDef seen, ∃ r : Res κ,
      walkSelection schema doc obs (fuel + 1) parentDef (.FragmentSpread name directives) seen
        = r.after
          (obs.fragmentSpread.map
              (fun v => Event.fragmentSpread v parentDef (doc.GetFragment name)
                (.FragmentSpread name directives))
            ++ walkDirectives schema obs
                ((doc.GetFragment name).bind fun d => schema.Types d.TypeCondition)
                directives .LocationFragmentSpread)) ∧
    (∀ parentDef location,
      ∀ e ∈ walkDirectives schema obs parentDef directives location,
        e.isFragmentSpread = false) ∧
    (∀ (o : OperationDefinition) (k : Nat) (d : FragmentDefinition) (body : List (Event κ))
      (seen1 : List String),
      o.SelectionSet = List.replicate (k + 1) (.FragmentSpread name directives) →
      doc.GetFragment name = some d →
      walkSelections (walkSelection schema doc obs fuel (schema.Types d.TypeCondition))
        d.SelectionSet [d.Name] = .ok body seen1 →
      walkOperation schema doc obs (fuel + 1) o []
        = .ok
          (obs.operationVisitor.map (fun v => Event.operation v o)
            ++ walkDirectives schema obs (operationRoot schema o.Operation).1 o.Directives
                (operationRoot schema o.Operation).2
            ++ walkVariableDefinitions schema obs o.VariableDefinitions
            ++ (obs.fragmentSpread.map
                  (fun v => Event.fragmentSpread v (operationRoot schema o.Operation).1 (some d)
                    (.FragmentSpread name directives))
                ++ walkDirectives schema obs (schema.Types d.TypeCondition)
                    directives .LocationFragmentSpread)
            ++ body
            ++ (List.replicate k
                (obs.fragmentSpread.map
                    (fun v => Event.fragmentSpread v (operationRoot schema o.Operation).1
                      (some d) (.FragmentSpread name directives))
                  ++ walkDirectives schema obs (schema.Types d.TypeCondition)
                      directives .LocationFragmentSpread)).flatten
            ++ obs.operationLeaveVisitor.map fun v => Event.operationLeave v o)
          seen1) := by
  refine ⟨?_, ?_, ?_⟩
  · intro parentDef seen
    simp only [walkSelection]
    cases hd : doc.GetFragment name with
    | none => exact ⟨.ok [] seen, by simp⟩
    | some d =>
      by_cases hm : d.Name ∈ seen
      · exact ⟨.ok [] seen, by simp [hm]⟩
      · exact ⟨_, by simp only [hm, if_false]; rfl⟩
  · intro parentDef location e he
    exact Event.isFragmentSpread_le e
      (walkDirectives_isSelection schema obs parentDef directives location e he)
  · intro o k d body seen1 ho hd hb
    have hmem : d.Name ∈ seen1 :=
      (walkSelections_grows (walkSelection_grows schema doc obs fuel _) _ _ _ _ hb).mem
        (List.mem_singleton_self _)
    have e1 := walkSelection_spread_descend schema doc obs fuel
      (operationRoot schema o.Operation).1 name directives [] d hd (by simp)
    have e2 := walkSelections_spread_repeat schema doc obs fuel
      (operationRoot schema o.Operation).1 name directives seen1 d hd hmem k
    simp only [walkOperation, ho, List.replicate_succ, walkSelections, e1, hb, Res.after_ok,
      Res.andThen_ok, e2, List.append_assoc, List.append_nil]

/-- C6: a fragment spread whose name the document does not define invokes
each Fragment-Spread callback once with an absent fragment, walks the
spread's directives with an absent parent type, invokes no Field,
Inline-Fragment or Fragment-Spread callback besides, and leaves the
expanded set unchanged. -/
theorem undefined_fragment_spread (schema : Schema) (doc : QueryDocument) (obs : Events κ)
    (fuel : Nat) (parentDef : Option Definition) (name : String) (directives : List Directive)
    (seen : List String) (h : doc.GetFragment name = none) :
    walkSelection schema doc obs (fuel + 1) parentDef (.FragmentSpread name directives) seen
      = .ok
        (obs.fragmentSpread.map
            (fun v => Event.fragmentSpread v parentDef none (.FragmentSpread name directives))
          ++ walkDirectives schema obs none directives .LocationFragmentSpread)
        seen
    ∧ ∀ e ∈ walkDirectives schema obs none directives .LocationFragmentSpread,
        e.isSelection = false := by
  refine ⟨?_, walkDirectives_isSelection schema obs none directives .LocationFragmentSpread⟩
  have e := walkSelection_spread_expanded schema doc obs fuel parentDef name directives seen
    (Or.inl h)
  rw [h] at e
  exact e

/-- Witness of C5: `{ ...F ...F ...F }` with `fragment F on Pet { name }`;
the Fragment-Spread callback `1` runs three times, the field `name` of `F`
is walked once. -/
theorem fragmentSpread_callbacks_per_occurrence_witness :
    walkOperation petSchema sharedFragmentDocument selectionObservers 2
        (anonymousOperation (List.replicate 3 (.FragmentSpread "F" []))) []
      = .ok
        [ .fragmentSpread 1 petSchema.Query (sharedFragmentDocument.GetFragment "F")
            (.FragmentSpread "F" []),
          .field 0 (petSchema.Types "Pet") (some (.mk "name" [] (.NamedType "String")))
            (.Field "name" [] [] []),
          .fragmentSpread 1 petSchema.Query (sharedFragmentDocument.GetFragment "F")
            (.FragmentSpread "F" []),
          .fragmentSpread 1 petSchema.Query (sharedFragmentDocument.GetFragment "F")
            (.FragmentSpread "F" []) ]
        ["F"] :=
  (fragmentSpread_callbacks_per_occurrence petSchema sharedFragmentDocument selectionObservers
    1 "F" []).2.2 (anonymousOperation (List.replicate 3 (.FragmentSpread "F" []))) 2
    { Name := "F", TypeCondition := "Pet", Directives := [],
      SelectionSet := [.Field "name" [] [] []] }
    [ .field 0 (petSchema.Types "Pet") (some (.mk "name" [] (.NamedType "String")))
        (.Field "name" [] [] []) ]
    ["F"] rfl rfl rfl

/-- Witness of C6: the spread `...Missing` in a document without
fragments. -/
theorem undefined_fragment_spread_witness :
    petDocument.GetFragment "Missing" = none
      ∧ walkSelection petSchema petDocument recordingObservers 1 petSchema.Query
          (.FragmentSpread "Missing" []) ["F"]
        = .ok
          [ .fragmentSpread 1 petSchema.Query none (.FragmentSpread "Missing" []),
            .directiveList 3 none [] .LocationFragmentSpread ]
          ["F"] :=
  ⟨rfl, (undefined_fragment_spread petSchema petDocument recordingObservers 0 petSchema.Query
    "Missing" [] ["F"] rfl).1⟩

/-! ## Roots -/

/-- C9: on a document of supported selections the trace of `Walk` is the
concatenation of the traces of its roots, the operations in document
order and then the fragments in document order, each walked from the empty
expanded set; when two anonymous operations spread the same fragment `F`,
the field of `F` is walked in the traversal of each of them (and once more
for `F` as a root). -/
theorem Walk_trace_by_roots (schema : Schema) (doc : QueryDocument) (obs : Events κ)
    (hs : doc.Supported = true) :
    (∃ seen, Walk schema doc obs = .ok
      ((doc.Operations.flatMap fun o => (walkOperation schema doc obs doc.fuel o []).trace)
        ++ doc.Fragments.flatMap fun f => (walkFragment schema doc obs doc.fuel f []).trace)
      seen)
    ∧ Walk petSchema sharedFragmentDocument selectionObservers
      = .ok
        [ .fragmentSpread 1 petSchema.Query (sharedFragmentDocument.GetFragment "F")
            (.FragmentSpread "F" []),
          .field 0 (petSchema.Types "Pet") (some (.mk "name" [] (.NamedType "String")))
            (.Field "name" [] [] []),
          .fragmentSpread 1 petSchema.Query (sharedFragmentDocument.GetFragment "F")
            (.FragmentSpread "F" []),
          .field 0 (petSchema.Types "Pet") (some (.mk "name" [] (.NamedType "String")))
            (.Field "name" [] [] []),
          .field 0 (petSchema.Types "Pet") (some (.mk "name" [] (.NamedType "String")))
            (.Field "name" [] [] []) ]
        [] :=
  ⟨Walk_eq_ok schema doc obs hs, rfl⟩

/-- Witness of C9 on the document with two anonymous operations. -/
theorem Walk_trace_by_roots_witness :
    sharedFragmentDocument.Supported = true
      ∧ ∃ seen, Walk petSchema sharedFragmentDocument selectionObservers = .ok
          ((sharedFragmentDocument.Operations.flatMap fun o =>
              (walkOperation petSchema sharedFragmentDocument selectionObservers
                sharedFragmentDocument.fuel o []).trace)
            ++ sharedFragmentDocument.Fragments.flatMap fun f =>
              (walkFragment petSchema sharedFragmentDocument selectionObservers
                sharedFragmentDocument.fuel f []).trace)
          seen :=
  ⟨rfl, (Walk_trace_by_roots petSchema sharedFragmentDocument selectionObservers rfl).1⟩

/-- C10: `walkOperation` walks the operation's directives and its top-level
selections with the parent type and the location that the operation kind
selects: `Schema.Query` and `LocationQuery` for `query`, `Schema.Mutation`
and `LocationMutation` for `mutation`, `Schema.Subscription` and
`LocationSubscription` for `subscription`, and for the empty kind the same
as for `query`. -/
theorem walkOperation_root_by_kind (schema : Schema) (doc : QueryDocument) (obs : Events κ)
    (fuel : Nat) :
    (∀ (o : OperationDefinition) (seen : List String),
      walkOperation schema doc obs fuel o seen
        = ((walkSelections
              (walkSelection schema doc obs fuel (operationRoot schema o.Operation).1)
              o.SelectionSet seen).after
            (obs.operationVisitor.map (fun v => Event.operation v o)
              ++ walkDirectives schema obs (operationRoot schema o.Operation).1 o.Directives
                  (operationRoot schema o.Operation).2
              ++ walkVariableDefinitions schema obs o.VariableDefinitions)).andThen
          fun seen1 =>
            .ok (obs.operationLeaveVisitor.map fun v => Event.operationLeave v o) seen1)
    ∧ operationRoot schema Query = (schema.Query, .LocationQuery)
    ∧ operationRoot schema Mutation = (schema.Mutation, .LocationMutation)
    ∧ operationRoot schema Subscription = (schema.Subscription, .LocationSubscription)
    ∧ operationRoot schema "" = operationRoot schema Query :=
  ⟨fun _ _ => rfl, rfl, rfl, rfl, rfl⟩

/-! ## Traces are made of whole dispatches -/

theorem DispatchedBy.nil (o : Events κ) (kinds : List Kind) : DispatchedBy o kinds [] :=
  ⟨[], by simp, rfl⟩

theorem DispatchedBy.append {o : Events κ} {kinds : List Kind} {a b : List (Event κ)}
    (ha : DispatchedBy o kinds a) (hb : DispatchedBy o kinds b) :
    DispatchedBy o kinds (a ++ b) := by
  obtain ⟨na, ka, rfl⟩ := ha
  obtain ⟨nb, kb, rfl⟩ := hb
  refine ⟨na ++ nb, ?_, by rw [List.flatMap_append]⟩
  intro n hn
  rcases List.mem_append.1 hn with h | h
  · exact ka n h
  · exact kb n h

theorem DispatchedBy.mono {o : Events κ} {k1 k2 : List Kind} {t : List (Event κ)}
    (hsub : ∀ k ∈ k1, k ∈ k2) (h : DispatchedBy o k1 t) : DispatchedBy o k2 t := by
  obtain ⟨nodes, hk, rfl⟩ := h
  exact ⟨nodes, fun n hn => hsub _ (hk n hn), rfl⟩

theorem DispatchedBy.node (o : Events κ) {kinds : List Kind} (n : Event Unit)
    (h : n.kind ∈ kinds) : DispatchedBy o kinds (o.dispatch n) :=
  ⟨[n], by simpa using h, by simp⟩

theorem DispatchedBy.flatMap {o : Events κ} {kinds : List Kind} {α : Type} (l : List α)
    (f : α → List (Event κ)) (h : ∀ x ∈ l, DispatchedBy o kinds (f x)) :
    DispatchedBy o kinds (l.flatMap f) := by
  induction l with
  | nil => exact DispatchedBy.nil o kinds
  | cons x rest ih =>
    rw [List.flatMap_cons]
    exact (h x (List.mem_cons_self _ _)).append
      (ih fun y hy => h y (List.mem_cons_of_mem _ hy))

theorem Event.kind_withCallback {α β : Type} (n : Event α) (v : β) :
    (n.withCallback v).kind = n.kind := by
  cases n <;> rfl

theorem DispatchedBy.kind_mem {o : Events κ} {kinds : List Kind} {t : List (Event κ)}
    (h : DispatchedBy o kinds t) : ∀ e ∈ t, e.kind ∈ kinds := by
  obtain ⟨nodes, hk, rfl⟩ := h
  intro e he
  simp only [List.mem_flatMap, Events.dispatch, List.mem_map] at he
  obtain ⟨n, hn, v, -, rfl⟩ := he
  rw [Event.kind_withCallback]
  exact hk n hn

theorem Res.trace_after {P : List (Event κ) → Prop} (hnil : P [])
    (happ : ∀ a b, P a → P b → P (a ++ b)) {a : List (Event κ)} {r : Res κ}
    (ha : P a) (hr : P r.trace) : P (r.after a).trace := by
  cases r with
  | ok t s => exact happ _ _ ha hr
  | panic t => exact happ _ _ ha hr
  | outOfFuel => exact hnil

theorem Res.trace_andThen {P : List (Event κ) → Prop} (hnil : P [])
    (happ : ∀ a b, P a → P b → P (a ++ b)) {r : Res κ} {k : List String → Res κ}
    (hr : P r.trace) (hk : ∀ s, P (k s).trace) : P (r.andThen k).trace := by
  cases r with
  | ok t s => exact Res.trace_after hnil happ hr (hk s)
  | panic t => exact hr
  | outOfFuel => exact hnil

theorem walkSelections_trace {P : List (Event κ) → Prop} (hnil : P [])
    (happ : ∀ a b, P a → P b → P (a ++ b)) {walkOne : Selection → List String → Res κ}
    (h1 : ∀ sel seen, P (walkOne sel seen).trace) :
    ∀ sels seen, P (walkSelections walkOne sels seen).trace := by
  intro sels
  induction sels with
  | nil => intro seen; exact hnil
  | cons sel rest ih =>
    intro seen
    simp only [walkSelections]
    exact Res.trace_andThen hnil happ (h1 sel seen) ih

theorem walkRoots_trace {P : List (Event κ) → Prop} (hnil : P [])
    (happ : ∀ a b, P a → P b → P (a ++ b)) {α : Type} {walkRoot : α → List String → Res κ}
    (h1 : ∀ x seen, P (walkRoot x seen).trace) :
    ∀ xs seen, P (walkRoots walkRoot xs seen).trace := by
  intro xs
  induction xs with
  | nil => intro seen; exact hnil
  | cons x rest ih =>
    intro seen
    simp only [walkRoots]
    exact Res.trace_andThen hnil happ (h1 x []) ih

mutual
theorem walkValue_dispatched (schema : Schema) (obs : Events κ) :
    ∀ (valueType : Option GType) (value : Value),
      DispatchedBy obs [.value] (walkValue schema obs valueType value)
  | valueType, .ObjectValue fields => by
    simp only [walkValue]
    exact (DispatchedBy.node obs (Event.value () valueType _ (.ObjectValue fields))
      (by simp [Event.kind])).append (walkObjectFields_dispatched schema obs _ fields)
  | valueType, .ScalarValue raw => by
    simp only [walkValue]
    exact DispatchedBy.node obs (Event.value () valueType _ (.ScalarValue raw))
      (by simp [Event.kind])
  | valueType, .Variable name => by
    simp only [walkValue]
    exact DispatchedBy.node obs (Event.value () valueType _ (.Variable name))
      (by simp [Event.kind])
  | valueType, .ListValue elems => by
    simp only [walkValue]
    exact DispatchedBy.node obs (Event.value () valueType _ (.ListValue elems))
      (by simp [Event.kind])
theorem walkObjectFields_dispatched (schema : Schema) (obs : Events κ) :
    ∀ (defn : Option Definition) (fields : List (String × Value)),
      DispatchedBy obs [.value] (walkObjectFields schema obs defn fields)
  | defn, [] => by
    simp only [walkObjectFields]
    exact DispatchedBy.nil obs _
  | defn, (name, nested) :: rest => by
    simp only [walkObjectFields]
    exact (walkValue_dispatched schema obs _ nested).append
      (walkObjectFields_dispatched schema obs defn rest)
end

theorem walkArgument_dispatched (schema : Schema) (obs : Events κ)
    (argDef : Option FieldDefinition) (arg : Argument) :
    DispatchedBy obs [.argument, .value] (walkArgument schema obs argDef arg) := by
  simp only [walkArgument]
  exact (DispatchedBy.node obs (Event.argument () arg) (by simp [Event.kind])).append
    ((walkValue_dispatched schema obs _ _).mono (by simp))

theorem walkArguments_dispatched (schema : Schema) (obs : Events κ)
    (args : Option (List FieldDefinition)) (arguments : List Argument) :
    DispatchedBy obs [.argument, .value] (walkArguments schema obs args arguments) :=
  DispatchedBy.flatMap _ _ fun arg _ => walkArgument_dispatched schema obs _ arg

theorem walkDirectives_dispatched (schema : Schema) (obs : Events κ)
    (parentDef : Option Definition) (directives : List Directive)
    (location : DirectiveLocation) :
    DispatchedBy obs directiveKinds
      (walkDirectives schema obs parentDef directives location) := by
  simp only [walkDirectives]
  refine (DispatchedBy.node obs (Event.directiveList () parentDef directives location)
    (by simp [Event.kind, directiveKinds])).append (DispatchedBy.flatMap _ _ fun dir _ => ?_)
  exact (DispatchedBy.node obs
      (Event.directive () parentDef (schema.Directives dir.Name) dir location)
      (by simp [Event.kind, directiveKinds])).append
    ((walkArguments_dispatched schema obs _ _).mono (by simp [directiveKinds]))

theorem walkVariableDefinitions_dispatched (schema : Schema) (obs : Events κ)
    (varDefs : List VariableDefinition) :
    DispatchedBy obs [.variableDef, .value] (walkVariableDefinitions schema obs varDefs) := by
  simp only [walkVariableDefinitions]
  refine DispatchedBy.flatMap _ _ fun varDef _ => ?_
  refine (DispatchedBy.node obs
    (Event.variableDef () varDef.Typ (schema.Types varDef.Typ.Name) varDef)
    (by simp [Event.kind])).append ?_
  cases varDef.DefaultValue with
  | none => exact DispatchedBy.nil obs _
  | some value => exact (walkValue_dispatched schema obs _ value).mono (by simp)

theorem walkSelection_dispatched (schema : Schema) (doc : QueryDocument) (obs : Events κ) :
    ∀ fuel parentDef sel seen,
      DispatchedBy obs selectionKinds
        (walkSelection schema doc obs fuel parentDef sel seen).trace := by
  have hnil := DispatchedBy.nil obs selectionKinds
  have happ : ∀ a b : List (Event κ), DispatchedBy obs selectionKinds a →
      DispatchedBy obs selectionKinds b → DispatchedBy obs selectionKinds (a ++ b) :=
    fun _ _ ha hb => ha.append hb
  have hdir : ∀ p ds l, DispatchedBy obs selectionKinds (walkDirectives schema obs p ds l) :=
    fun p ds l => (walkDirectives_dispatched schema obs p ds l).mono
      (by simp [directiveKinds, selectionKinds])
  intro fuel
  induction fuel with
  | zero => intro parentDef sel seen; exact hnil
  | succ fuel ih =>
    intro parentDef sel seen
    cases sel with
    | Field name arguments directives selectionSet =>
      simp only [walkSelection]
      refine Res.trace_andThen hnil happ (Res.trace_after hnil happ (happ _ _ ?_ ?_) ?_) ?_
      · exact DispatchedBy.node obs
          (Event.field () parentDef (fieldDefinitionFor parentDef name)
            (.Field name arguments directives selectionSet))
          (by simp [Event.kind, selectionKinds])
      · exact (walkArguments_dispatched schema obs _ _).mono (by simp [selectionKinds])
      · exact walkSelections_trace hnil happ (ih _) _ _
      · intro s; exact hdir _ _ _
    | InlineFragment typeCondition directives selectionSet =>
      simp only [walkSelection]
      refine Res.trace_after hnil happ (happ _ _ ?_ (hdir _ _ _))
        (walkSelections_trace hnil happ (ih _) _ _)
      exact DispatchedBy.node obs
        (Event.inlineFragment () parentDef
          (.InlineFragment typeCondition directives selectionSet))
        (by simp [Event.kind, selectionKinds])
    | FragmentSpread name directives =>
      simp only [walkSelection]
      have hb : DispatchedBy obs selectionKinds
          (obs.fragmentSpread.map
              (fun v => Event.fragmentSpread v parentDef (doc.GetFragment name)
                (.FragmentSpread name directives))
            ++ walkDirectives schema obs
                ((doc.GetFragment name).bind fun d => schema.Types d.TypeCondition)
                directives .LocationFragmentSpread) :=
        happ _ _
          (DispatchedBy.node obs
            (Event.fragmentSpread () parentDef (doc.GetFragment name)
              (.FragmentSpread name directives))
            (by simp [Event.kind, selectionKinds]))
          (hdir _ _ _)
      cases hd : doc.GetFragment name with
      | none => rw [hd] at hb; exact hb
      | some d =>
        rw [hd] at hb
        by_cases hm : d.Name ∈ seen
        · simp only [hm, if_true]; exact hb
        · simp only [hm, if_false]
          exact Res.trace_after hnil happ hb (walkSelections_trace hnil happ (ih _) _ _)
    | Unsupported => exact hnil

theorem allKinds_mem (k : Kind) : k ∈ allKinds := by
  cases k <;> simp [allKinds]

theorem walkOperation_dispatched (schema : Schema) (doc : QueryDocument) (obs : Events κ)
    (fuel : Nat) (o : OperationDefinition) (seen : List String) :
    DispatchedBy obs allKinds (walkOperation schema doc obs fuel o seen).trace := by
  have hnil := DispatchedBy.nil obs allKinds
  have happ : ∀ a b : List (Event κ), DispatchedBy obs allKinds a →
      DispatchedBy obs allKinds b → DispatchedBy obs allKinds (a ++ b) :=
    fun _ _ ha hb => ha.append hb
  have hall : ∀ k ∈ selectionKinds, k ∈ allKinds := fun k _ => allKinds_mem k
  simp only [walkOperation]
  refine Res.trace_andThen hnil happ
    (Res.trace_after hnil happ (happ _ _ (happ _ _ ?_ ?_) ?_) ?_) ?_
  · exact DispatchedBy.node obs (Event.operation () o) (allKinds_mem _)
  · exact (walkDirectives_dispatched schema obs _ _ _).mono fun k _ => allKinds_mem k
  · exact (walkVariableDefinitions_dispatched schema obs _).mono fun k _ => allKinds_mem k
  · exact walkSelections_trace hnil happ
      (fun sel s => (walkSelection_dispatched schema doc obs fuel _ sel s).mono hall) _ _
  · intro s
    exact DispatchedBy.node obs (Event.operationLeave () o) (allKinds_mem _)

theorem walkFragment_dispatched (schema : Schema) (doc : QueryDocument) (obs : Events κ)
    (fuel : Nat) (f : FragmentDefinition) (seen : List String) :
    DispatchedBy obs allKinds (walkFragment schema doc obs fuel f seen).trace := by
  have hnil := DispatchedBy.nil obs allKinds
  have happ : ∀ a b : List (Event κ), DispatchedBy obs allKinds a →
      DispatchedBy obs allKinds b → DispatchedBy obs allKinds (a ++ b) :=
    fun _ _ ha hb => ha.append hb
  have hall : ∀ k ∈ selectionKinds, k ∈ allKinds := fun k _ => allKinds_mem k
  simp only [walkFragment]
  refine Res.trace_after hnil happ (happ _ _ ?_ ?_) ?_
  · exact (walkDirectives_dispatched schema obs _ _ _).mono fun k _ => allKinds_mem k
  · exact DispatchedBy.node obs (Event.fragment () (schema.Types f.TypeCondition) f)
      (allKinds_mem _)
  · exact walkSelections_trace hnil happ
      (fun sel s => (walkSelection_dispatched schema doc obs fuel _ sel s).mono hall) _ _

theorem Walker.walk_dispatched (schema : Schema) (doc : QueryDocument) (obs : Events κ)
    (fuel : Nat) : DispatchedBy obs allKinds (Walker.walk schema doc obs fuel).trace := by
  have hnil := DispatchedBy.nil obs allKinds
  have happ : ∀ a b : List (Event κ), DispatchedBy obs allKinds a →
      DispatchedBy obs allKinds b → DispatchedBy obs allKinds (a ++ b) :=
    fun _ _ ha hb => ha.append hb
  simp only [Walker.walk]
  exact Res.trace_andThen hnil happ
    (walkRoots_trace hnil happ (walkOperation_dispatched schema doc obs fuel) _ _)
    (walkRoots_trace hnil happ (walkFragment_dispatched schema doc obs fuel) _)

/-! ## Registration -/

theorem Events.slot_on (o : Events κ) (k k2 : Kind) (f : κ) :
    (o.on k f).slot k2 = if k2 = k then o.slot k ++ [f] else o.slot k2 := by
  cases k <;> cases k2 <;> rfl

theorem Events.slot_foldl_on (k : Kind) (fs : List κ) :
    ∀ o : Events κ, (fs.foldl (fun a f => a.on k f) o).slot k = o.slot k ++ fs := by
  induction fs with
  | nil => intro o; simp
  | cons f rest ih =>
    intro o
    rw [List.foldl_cons, ih, Events.slot_on]
    simp

/-- C11: registering a callback for a kind appends it to the list of that
kind and leaves the list of every other kind as it is; registering the
callbacks `fs` one after the other appends `fs` in that order, without
removing repetitions; the trace of `Walk` is, node after node, the
invocation of every callback registered for the node's kind, in
registration order; a field callback registered twice runs twice on every
field. -/
theorem registration_appends_dispatch_in_order :
    (∀ (o : Events κ) (k k2 : Kind) (f : κ),
      (o.on k f).slot k2 = if k2 = k then o.slot k ++ [f] else o.slot k2) ∧
    (∀ (o : Events κ) (k : Kind) (fs : List κ),
      (fs.foldl (fun a f => a.on k f) o).slot k = o.slot k ++ fs) ∧
    (∀ (schema : Schema) (doc : QueryDocument) (o : Events κ),
      ∃ nodes : List (Event Unit), (Walk schema doc o).trace = nodes.flatMap o.dispatch) ∧
    Walk petSchema petDocument (((noObservers.OnField 7).OnField 7).OnField 8)
      = .ok
        [ .field 7 petSchema.Query (some (.mk "pet" [] (.NamedType "Pet")))
            (.Field "pet" [] [] [.Field "name" [] [] []]),
          .field 7 petSchema.Query (some (.mk "pet" [] (.NamedType "Pet")))
            (.Field "pet" [] [] [.Field "name" [] [] []]),
          .field 8 petSchema.Query (some (.mk "pet" [] (.NamedType "Pet")))
            (.Field "pet" [] [] [.Field "name" [] [] []]),
          .field 7 (petSchema.Types "Pet") (some (.mk "name" [] (.NamedType "String")))
            (.Field "name" [] [] []),
          .field 7 (petSchema.Types "Pet") (some (.mk "name" [] (.NamedType "String")))
            (.Field "name" [] [] []),
          .field 8 (petSchema.Types "Pet") (some (.mk "name" [] (.NamedType "String")))
            (.Field "name" [] [] []) ] [] := by
  refine ⟨Events.slot_on, fun o k fs => Events.slot_foldl_on k fs o, ?_, rfl⟩
  intro schema doc o
  obtain ⟨nodes, -, e⟩ := Walker.walk_dispatched schema doc o doc.fuel
  exact ⟨nodes, e⟩

/-! ## Directives, variables and values -/

theorem walkArguments_eq (schema : Schema) (obs : Events κ)
    (defn : Option DirectiveDefinition) (arguments : List Argument) :
    walkArguments schema obs (defn.map fun d => d.Arguments) arguments
      = arguments.flatMap fun arg =>
          walkArgument schema obs (defn.bind fun d => FieldList.ForName d.Arguments arg.Name)
            arg := by
  cases defn <;> rfl

/-- C12: `walkDirectives` first invokes every Directive-List callback once
with (parentType, the whole directive list, location), also for an empty
list; what follows holds no Directive-List invocation and is, directive by
directive in order, the Directive callbacks with the definition the
schema has for the directive's name (absent if unknown) followed by the
walk of each argument with the argument definition of its name in
that definition (absent if the definition is absent or has no such
argument). -/
theorem walkDirectives_order (schema : Schema) (obs : Events κ)
    (parentDef : Option Definition) (directives : List Directive)
    (location : DirectiveLocation) :
    walkDirectives schema obs parentDef directives location
      = obs.directiveList.map (fun v => Event.directiveList v parentDef directives location)
        ++ directives.flatMap (fun dir =>
            obs.directive.map
                (fun v => Event.directive v parentDef (schema.Directives dir.Name) dir location)
              ++ dir.Arguments.flatMap fun arg =>
                  walkArgument schema obs
                    ((schema.Directives dir.Name).bind
                      fun d => FieldList.ForName d.Arguments arg.Name)
                    arg)
    ∧ walkDirectives schema obs parentDef [] location
      = obs.directiveList.map (fun v => Event.directiveList v parentDef [] location)
    ∧ ∀ e ∈ directives.flatMap (fun dir =>
            obs.directive.map
                (fun v => Event.directive v parentDef (schema.Directives dir.Name) dir location)
              ++ dir.Arguments.flatMap fun arg =>
                  walkArgument schema obs
                    ((schema.Directives dir.Name).bind
                      fun d => FieldList.ForName d.Arguments arg.Name)
                    arg),
        e.kind ≠ .directiveList := by
  refine ⟨?_, by simp [walkDirectives], ?_⟩
  · simp only [walkDirectives, walkArguments_eq]
  · intro e he
    simp only [List.mem_flatMap, List.mem_append, List.mem_map] at he
    obtain ⟨dir, -, ⟨v, -, rfl⟩ | ⟨arg, -, he⟩⟩ := he
    · simp [Event.kind]
    · have hk := (walkArgument_dispatched schema obs _ arg).kind_mem e he
      intro hc
      rw [hc] at hk
      simp at hk

theorem walkObjectFields_eq (schema : Schema) (obs : Events κ) (defn : Option Definition)
    (fields : List (String × Value)) :
    walkObjectFields schema obs defn fields
      = fields.flatMap fun p =>
          walkValue schema obs ((defn.bind fun d => d.Field p.1).map fun f => f.Typ) p.2 := by
  induction fields with
  | nil => rfl
  | cons p rest ih =>
    obtain ⟨name, nested⟩ := p
    simp only [walkObjectFields, ih, List.flatMap_cons]

theorem walkValue_head (schema : Schema) (obs : Events κ) (valueType : Option GType)
    (value : Value) :
    ∃ nested, walkValue schema obs valueType value
      = obs.value.map
          (fun v => Event.value v valueType (valueType.bind fun t => schema.Types t.Name) value)
        ++ nested := by
  cases value with
  | ObjectValue fields =>
    exact ⟨walkObjectFields schema obs (valueType.bind fun t => schema.Types t.Name) fields,
      by simp only [walkValue]⟩
  | ScalarValue raw => exact ⟨[], by simp only [walkValue, List.append_nil]⟩
  | Variable name => exact ⟨[], by simp only [walkValue, List.append_nil]⟩
  | ListValue elems => exact ⟨[], by simp only [walkValue, List.append_nil]⟩

/-- C13: the variable definitions of an operation are walked in order; for
each the Variable callbacks get (declared type, `Schema.Types` of the
declared type's name, the definition), and a default value is then walked
as a value with the declared type as expected type, the Value callbacks
on it coming first; when the schema has no type of that name the walk
still produces its trace and the Value callbacks get an
absent definition. -/
theorem variable_default_value_walk (schema : Schema) (doc : QueryDocument)
    (obs : Events κ) :
    (∀ fuel (o : OperationDefinition) seen,
      walkOperation schema doc obs fuel o seen
        = ((walkSelections
              (walkSelection schema doc obs fuel (operationRoot schema o.Operation).1)
              o.SelectionSet seen).after
            (obs.operationVisitor.map (fun v => Event.operation v o)
              ++ walkDirectives schema obs (operationRoot schema o.Operation).1 o.Directives
                  (operationRoot schema o.Operation).2
              ++ walkVariableDefinitions schema obs o.VariableDefinitions)).andThen
          fun seen1 =>
            .ok (obs.operationLeaveVisitor.map fun v => Event.operationLeave v o) seen1) ∧
    (∀ varDefs : List VariableDefinition,
      walkVariableDefinitions schema obs varDefs
        = varDefs.flatMap fun varDef =>
            obs.variableVisitor.map
                (fun v => Event.variableDef v varDef.Typ (schema.Types varDef.Typ.Name) varDef)
              ++ match varDef.DefaultValue with
                 | some value => walkValue schema obs (some varDef.Typ) value
                 | none => []) ∧
    (∀ (declared : GType) (value : Value),
      ∃ nested, walkValue schema obs (some declared) value
        = obs.value.map
            (fun v => Event.value v (some declared) (schema.Types declared.Name) value)
          ++ nested) ∧
    (∀ (declared : GType) (value : Value), schema.Types declared.Name = none →
      ∃ nested, walkValue schema obs (some declared) value
        = obs.value.map (fun v => Event.value v (some declared) none value) ++ nested) := by
  refine ⟨fun _ _ _ => rfl, fun _ => rfl, ?_, ?_⟩
  · intro declared value
    exact walkValue_head schema obs (some declared) value
  · intro declared value h
    obtain ⟨nested, e⟩ := walkValue_head schema obs (some declared) value
    refine ⟨nested, ?_⟩
    rw [e]
    simp only [Option.some_bind, h]

/-- Witness of C13: `$x: Missing = 1` on the schema without types. -/
theorem variable_default_value_walk_witness :
    emptySchema.Types (GType.NamedType "Missing").Name = none
      ∧ walkVariableDefinitions emptySchema valueObservers [missingTypeVariable]
        = [ .variableDef 7 (.NamedType "Missing") none missingTypeVariable,
            .value 6 (some (.NamedType "Missing")) none (.ScalarValue "1") ]
      ∧ ∃ nested, walkValue emptySchema valueObservers (some (.NamedType "Missing"))
          (.ScalarValue "1")
        = valueObservers.value.map
            (fun v => Event.value v (some (.NamedType "Missing")) none (.ScalarValue "1"))
          ++ nested :=
  ⟨rfl, rfl,
    (variable_default_value_walk emptySchema petDocument valueObservers).2.2.2
      (.NamedType "Missing") (.ScalarValue "1") rfl⟩

/-! ## The one fatal condition -/

theorem Res.notOk_after {a : List (Event κ)} {r : Res κ} (h : r.notOk) :
    (r.after a).notOk := by
  intro t s e
  obtain ⟨t1, e1, -⟩ := Res.after_eq_ok e
  exact h _ _ e1

theorem Res.notOk_andThen_left {r : Res κ} {k : List String → Res κ} (h : r.notOk) :
    (r.andThen k).notOk := by
  intro t s e
  obtain ⟨t1, s1, t2, e1, -, -⟩ := Res.andThen_eq_ok e
  exact h _ _ e1

theorem Res.notOk_andThen_right {r : Res κ} {k : List String → Res κ}
    (h : ∀ s, (k s).notOk) : (r.andThen k).notOk := by
  intro t s e
  obtain ⟨t1, s1, t2, -, e2, -⟩ := Res.andThen_eq_ok e
  exact h _ _ _ e2

theorem walkSelections_notOk {walkOne : Selection → List String → Res κ} :
    ∀ sels : List Selection, (∃ sel ∈ sels, ∀ seen, (walkOne sel seen).notOk) →
      ∀ seen, (walkSelections walkOne sels seen).notOk := by
  intro sels
  induction sels with
  | nil => intro h; obtain ⟨sel, hm, -⟩ := h; simp at hm
  | cons a rest ih =>
    intro h seen
    obtain ⟨sel, hm, hs⟩ := h
    simp only [walkSelections]
    rcases List.mem_cons.1 hm with rfl | hr
    · exact Res.notOk_andThen_left (hs seen)
    · exact Res.notOk_andThen_right (ih ⟨sel, hr, hs⟩)

theorem Selection.exists_unsupported {sels : List Selection}
    (h : Selection.SupportedList sels = false) : ∃ sel ∈ sels, sel.Supported = false := by
  by_contra hc
  have hall : ∀ s ∈ sels, s.Supported = true := by
    intro s hs
    by_contra hf
    exact hc ⟨s, hs, by simpa using hf⟩
  rw [(Selection.supportedList_iff sels).2 hall] at h
  exact Bool.noConfusion h

/-- A selection that holds an unsupported selection is never walked to
completion. -/
theorem walkSelection_notOk (schema : Schema) (doc : QueryDocument) (obs : Events κ) :
    ∀ fuel parentDef sel seen, sel.Supported = false →
      (walkSelection schema doc obs fuel parentDef sel seen).notOk := by
  intro fuel
  induction fuel with
  | zero =>
    intro parentDef sel seen _ t s e
    simp [walkSelection] at e
  | succ fuel ih =>
    intro parentDef sel seen h
    have key : ∀ (sels : List Selection) (next : Option Definition) (seenA : List String),
        Selection.SupportedList sels = false →
        (walkSelections (walkSelection schema doc obs fuel next) sels seenA).notOk := by
      intro sels next seenA hs
      obtain ⟨s, hm, hf⟩ := Selection.exists_unsupported hs
      exact walkSelections_notOk sels ⟨s, hm, fun seenB => ih next s seenB hf⟩ seenA
    cases sel with
    | Field name arguments directives selectionSet =>
      simp only [walkSelection]
      exact Res.notOk_andThen_left
        (Res.notOk_after (key _ _ _ (by simpa [Selection.Supported] using h)))
    | InlineFragment typeCondition directives selectionSet =>
      simp only [walkSelection]
      exact Res.notOk_after (key _ _ _ (by simpa [Selection.Supported] using h))
    | FragmentSpread name directives => simp [Selection.Supported] at h
    | Unsupported =>
      intro t s e
      simp [walkSelection] at e

theorem walkSelections_walkSelection_notOk (schema : Schema) (doc : QueryDocument)
    (obs : Events κ) (fuel : Nat) (next : Option Definition) (sels : List Selection)
    (seen : List String) (h : Selection.SupportedList sels = false) :
    (walkSelections (walkSelection schema doc obs fuel next) sels seen).notOk := by
  obtain ⟨s, hm, hf⟩ := Selection.exists_unsupported h
  exact walkSelections_notOk sels
    ⟨s, hm, fun seenB => walkSelection_notOk schema doc obs fuel next s seenB hf⟩ seen

theorem walkRoots_notOk {α : Type} {walkRoot : α → List String → Res κ} :
    ∀ xs : List α, (∃ x ∈ xs, ∀ seen, (walkRoot x seen).notOk) →
      ∀ seen, (walkRoots walkRoot xs seen).notOk := by
  intro xs
  induction xs with
  | nil => intro h; obtain ⟨x, hm, -⟩ := h; simp at hm
  | cons a rest ih =>
    intro h seen
    obtain ⟨x, hm, hs⟩ := h
    simp only [walkRoots]
    rcases List.mem_cons.1 hm with rfl | hr
    · exact Res.notOk_andThen_left (hs [])
    · exact Res.notOk_andThen_right (ih ⟨x, hr, hs⟩)

theorem walkRoots_ne_outOfFuel {α : Type} {walkRoot : α → List String → Res κ} :
    ∀ xs : List α, (∀ x ∈ xs, walkRoot x [] ≠ .outOfFuel) →
      ∀ seen, walkRoots walkRoot xs seen ≠ .outOfFuel := by
  intro xs
  induction xs with
  | nil => intro _ seen; simp [walkRoots]
  | cons a rest ih =>
    intro h seen
    simp only [walkRoots]
    exact Res.andThen_ne_outOfFuel (h a (List.mem_cons_self _ _))
      (fun _ s _ => ih (fun y hy => h y (List.mem_cons_of_mem _ hy)) s)

/-- With the allowance `doc.fuel`, `Walk` never runs out of it. -/
theorem Walk_ne_outOfFuel (schema : Schema) (doc : QueryDocument) (obs : Events κ) :
    Walk schema doc obs ≠ .outOfFuel := by
  have hsel : ∀ (next : Option Definition) (sels : List Selection),
      Selection.depthList sels ≤ doc.depth →
      walkSelections (walkSelection schema doc obs doc.fuel next) sels [] ≠ .outOfFuel :=
    fun next sels hd =>
      walkSelections_walkSelection_ne_outOfFuel schema doc obs doc.depth
        (fun f hm => QueryDocument.fragment_depth_le hm) doc.fuel next sels []
        (doc.fuel_suffices hd)
  simp only [Walk, Walker.walk]
  apply Res.andThen_ne_outOfFuel
  · apply walkRoots_ne_outOfFuel
    intro o ho
    simp only [walkOperation]
    apply Res.andThen_ne_outOfFuel
    · rw [Res.after_ne_outOfFuel]
      exact hsel _ _ (QueryDocument.operation_depth_le ho)
    · intro t s _; simp
  · intro t s _
    apply walkRoots_ne_outOfFuel
    intro f hf
    simp only [walkFragment]
    rw [Res.after_ne_outOfFuel]
    exact hsel _ _ (QueryDocument.fragment_depth_le hf)

theorem Walk_notOk (schema : Schema) (doc : QueryDocument) (obs : Events κ)
    (h : doc.Supported = false) : (Walk schema doc obs).notOk := by
  simp only [QueryDocument.Supported, Bool.and_eq_false_iff, List.all_eq_false] at h
  simp only [Walk, Walker.walk]
  rcases h with ⟨o, ho, hs⟩ | ⟨f, hf, hs⟩
  · apply Res.notOk_andThen_left
    apply walkRoots_notOk _ ⟨o, ho, ?_⟩
    intro seen
    simp only [walkOperation]
    exact Res.notOk_andThen_left (Res.notOk_after
      (walkSelections_walkSelection_notOk schema doc obs _ _ _ _ (by simpa using hs)))
  · apply Res.notOk_andThen_right
    intro s
    apply walkRoots_notOk _ ⟨f, hf, ?_⟩
    intro seen
    simp only [walkFragment]
    exact Res.notOk_after
      (walkSelections_walkSelection_notOk schema doc obs _ _ _ _ (by simpa using hs))

theorem walkSelections_append (walkOne : Selection → List String → Res κ)
    (a b : List Selection) (seen : List String) :
    walkSelections walkOne (a ++ b) seen
      = (walkSelections walkOne a seen).andThen (walkSelections walkOne b) := by
  induction a generalizing seen with
  | nil => simp [walkSelections]
  | cons x rest ih =>
    simp only [List.cons_append, walkSelections]
    cases walkOne x seen with
    | ok t s =>
      simp only [Res.andThen_ok, Res.andThen_after]
      exact congrArg (Res.after t) (ih s)
    | panic t => rfl
    | outOfFuel => rfl

/-- C14: `Walk` completes exactly on the documents all of whose selections
are fields, inline fragments and fragment spreads (whatever the schema
knows of their names), and panics exactly on the others; walking a
selection of another variant panics at once, without any callback, and
nothing that follows it in the selection set is walked. -/
theorem Walk_fails_iff_unsupported (schema : Schema) (doc : QueryDocument)
    (obs : Events κ) :
    ((∃ t seen, Walk schema doc obs = .ok t seen) ↔ doc.Supported = true) ∧
    ((∃ t, Walk schema doc obs = .panic t) ↔ doc.Supported = false) ∧
    (∀ fuel parentDef seen,
      walkSelection schema doc obs (fuel + 1) parentDef .Unsupported seen = .panic []) ∧
    (∀ fuel parentDef before rest seen t seen1,
      walkSelections (walkSelection schema doc obs (fuel + 1) parentDef) before seen
        = .ok t seen1 →
      walkSelections (walkSelection schema doc obs (fuel + 1) parentDef)
        (before ++ .Unsupported :: rest) seen = .panic t) := by
  have hok : (∃ t seen, Walk schema doc obs = .ok t seen) ↔ doc.Supported = true := by
    constructor
    · rintro ⟨t, seen, e⟩
      by_contra hc
      exact Walk_notOk schema doc obs (by simpa using hc) t seen e
    · intro h
      obtain ⟨seen, e⟩ := Walk_eq_ok schema doc obs h
      exact ⟨_, seen, e⟩
  refine ⟨hok, ?_, fun _ _ _ => rfl, ?_⟩
  · constructor
    · rintro ⟨t, e⟩
      by_contra hc
      obtain ⟨t1, s1, e1⟩ := hok.2 (by simpa using hc)
      rw [e] at e1
      exact Res.noConfusion e1
    · intro h
      cases e : Walk schema doc obs with
      | ok t s => exact absurd e (Walk_notOk schema doc obs h t s)
      | panic t => exact ⟨t, rfl⟩
      | outOfFuel => exact absurd e (Walk_ne_outOfFuel schema doc obs)
  · intro fuel parentDef before rest seen t seen1 h
    rw [walkSelections_append, h]
    simp [walkSelections, walkSelection]

/-- Witness of C14: `{ a <unsupported> b }`; the field `a` is walked, then
the walk panics, and `b` is not walked. -/
theorem Walk_fails_iff_unsupported_witness :
    unsupportedDocument.Supported = false
      ∧ Walk emptySchema unsupportedDocument selectionObservers
        = .panic [ .field 0 none none (.Field "a" [] [] []) ]
      ∧ ∃ t, Walk emptySchema unsupportedDocument selectionObservers = .panic t :=
  ⟨rfl, rfl,
    (Walk_fails_iff_unsupported emptySchema unsupportedDocument selectionObservers).2.1.2 rfl⟩

/-! ## Operations and fragment definitions -/

/-- C15: the trace of a completed `walkOperation` starts with the
Operation-enter callbacks, each invoked once with the operation in
registration order, and ends with the Operation-leave callbacks, likewise;
between them lie the walk of the operation's directives, then of its
variable definitions, then of its top-level selections, none of which
invokes an Operation-enter or Operation-leave callback. -/
theorem operation_enter_leave (schema : Schema) (doc : QueryDocument) (obs : Events κ)
    (fuel : Nat) (o : OperationDefinition) (seen : List String) (t : List (Event κ))
    (seen1 : List String) (h : walkOperation schema doc obs fuel o seen = .ok t seen1) :
    ∃ body,
      walkSelections (walkSelection schema doc obs fuel (operationRoot schema o.Operation).1)
          o.SelectionSet seen = .ok body seen1
      ∧ t = obs.operationVisitor.map (fun v => Event.operation v o)
          ++ (walkDirectives schema obs (operationRoot schema o.Operation).1 o.Directives
                (operationRoot schema o.Operation).2
              ++ walkVariableDefinitions schema obs o.VariableDefinitions
              ++ body)
          ++ obs.operationLeaveVisitor.map (fun v => Event.operationLeave v o)
      ∧ ∀ e ∈ walkDirectives schema obs (operationRoot schema o.Operation).1 o.Directives
                (operationRoot schema o.Operation).2
              ++ walkVariableDefinitions schema obs o.VariableDefinitions
              ++ body,
          e.kind ≠ .operation ∧ e.kind ≠ .operationLeave := by
  simp only [walkOperation] at h
  obtain ⟨ta, sa, tb, ha, hb, e⟩ := Res.andThen_eq_ok h
  obtain ⟨tc, hc, e1⟩ := Res.after_eq_ok ha
  simp only [Res.ok.injEq] at hb
  obtain ⟨hb1, hb2⟩ := hb
  subst hb2
  refine ⟨tc, hc, ?_, ?_⟩
  · rw [e, e1, ← hb1]
    simp only [List.append_assoc]
  · have hbody : DispatchedBy obs operationBodyKinds tc := by
      have := walkSelections_trace (P := DispatchedBy obs selectionKinds)
        (DispatchedBy.nil obs _) (fun _ _ ha hb => ha.append hb)
        (walkSelection_dispatched schema doc obs fuel (operationRoot schema o.Operation).1)
        o.SelectionSet seen
      rw [hc] at this
      exact DispatchedBy.mono (by simp [selectionKinds, operationBodyKinds]) this
    have hmid := ((((walkDirectives_dispatched schema obs
        (operationRoot schema o.Operation).1 o.Directives
        (operationRoot schema o.Operation).2).mono
          (by simp [directiveKinds, operationBodyKinds])).append
      ((walkVariableDefinitions_dispatched schema obs o.VariableDefinitions).mono
          (by simp [operationBodyKinds]))).append hbody).kind_mem
    intro ev hev
    have hk := hmid ev hev
    constructor <;> intro hc2 <;> rw [hc2] at hk <;> simp [operationBodyKinds] at hk

/-- Witness of C15: `query ($x: Missing = 1) @d { pet }` on the pet
schema. -/
theorem operation_enter_leave_witness :
    walkOperation petSchema petDocument operationObservers 1 sampleOperation []
      = .ok
        [ .operation 10 sampleOperation,
          .directiveList 3 petSchema.Query [⟨"d", []⟩] .LocationQuery,
          .variableDef 7 (.NamedType "Missing") none missingTypeVariable,
          .field 0 petSchema.Query (some (.mk "pet" [] (.NamedType "Pet")))
            (.Field "pet" [] [] []),
          .directiveList 3 (petSchema.Types "Pet") [] .LocationField,
          .operationLeave 11 sampleOperation ] []
      ∧ ∃ body,
        walkSelections
            (walkSelection petSchema petDocument operationObservers 1
              (operationRoot petSchema sampleOperation.Operation).1)
            sampleOperation.SelectionSet [] = .ok body []
        ∧ [ Event.operation 10 sampleOperation,
            .directiveList 3 petSchema.Query [⟨"d", []⟩] .LocationQuery,
            .variableDef 7 (.NamedType "Missing") none missingTypeVariable,
            .field 0 petSchema.Query (some (.mk "pet" [] (.NamedType "Pet")))
              (.Field "pet" [] [] []),
            .directiveList 3 (petSchema.Types "Pet") [] .LocationField,
            .operationLeave 11 sampleOperation ]
          = operationObservers.operationVisitor.map (fun v => Event.operation v sampleOperation)
            ++ (walkDirectives petSchema operationObservers
                  (operationRoot petSchema sampleOperation.Operation).1
                  sampleOperation.Directives
                  (operationRoot petSchema sampleOperation.Operation).2
                ++ walkVariableDefinitions petSchema operationObservers
                    sampleOperation.VariableDefinitions
                ++ body)
            ++ operationObservers.operationLeaveVisitor.map
                (fun v => Event.operationLeave v sampleOperation)
        ∧ ∀ e ∈ walkDirectives petSchema operationObservers
                  (operationRoot petSchema sampleOperation.Operation).1
                  sampleOperation.Directives
                  (operationRoot petSchema sampleOperation.Operation).2
                ++ walkVariableDefinitions petSchema operationObservers
                    sampleOperation.VariableDefinitions
                ++ body,
            e.kind ≠ .operation ∧ e.kind ≠ .operationLeave :=
  ⟨rfl, operation_enter_leave petSchema petDocument operationObservers 1 sampleOperation []
    _ [] rfl⟩

theorem walkFragment_eq_ok_iff (schema : Schema) (doc : QueryDocument) (obs : Events κ)
    (fuel : Nat) (f : FragmentDefinition) (seen : List String) (t : List (Event κ))
    (seen1 : List String) (h : walkFragment schema doc obs fuel f seen = .ok t seen1) :
    ∃ children,
      walkSelections (walkSelection schema doc obs fuel (schema.Types f.TypeCondition))
          f.SelectionSet seen = .ok children seen1
      ∧ t = walkDirectives schema obs (schema.Types f.TypeCondition) f.Directives
            .LocationFragmentDefinition
          ++ obs.fragment.map (fun v => Event.fragment v (schema.Types f.TypeCondition) f)
          ++ children := by
  simp only [walkFragment] at h
  obtain ⟨tc, hc, e1⟩ := Res.after_eq_ok h
  exact ⟨tc, hc, e1⟩

/-- Counterexample to C16 as stated: walking `fragment F on Pet @d { name }`
as a root invokes the Directive-List and Directive callbacks of `@d` before
the Field callback of `name`, so the trace does not end with the
fragment's directives. -/
theorem fragmentDirectivesAfterSelections_fails :
    ¬ FragmentDirectivesAfterSelections petSchema directiveFragmentDocument
        recordingObservers 1 directiveFragment [] := by
  intro h
  have e : walkFragment petSchema directiveFragmentDocument recordingObservers 1
      directiveFragment []
      = .ok
        [ .directiveList 3 (petSchema.Types "Pet") [⟨"d", []⟩] .LocationFragmentDefinition,
          .directive 4 (petSchema.Types "Pet") none ⟨"d", []⟩ .LocationFragmentDefinition,
          .field 0 (petSchema.Types "Pet") (some (.mk "name" [] (.NamedType "String")))
            (.Field "name" [] [] []),
          .directiveList 3 none [] .LocationField ] [] := rfl
  obtain ⟨before, children, hc, ht⟩ := h _ _ e
  have e2 : walkSelections
      (walkSelection petSchema directiveFragmentDocument recordingObservers 1
        (petSchema.Types directiveFragment.TypeCondition))
      directiveFragment.SelectionSet []
      = .ok
        [ .field 0 (petSchema.Types "Pet") (some (.mk "name" [] (.NamedType "String")))
            (.Field "name" [] [] []),
          .directiveList 3 none [] .LocationField ] [] := rfl
  rw [e2] at hc
  simp only [Res.ok.injEq, and_true] at hc
  subst hc
  have e3 : walkDirectives petSchema recordingObservers
      (petSchema.Types directiveFragment.TypeCondition) directiveFragment.Directives
      .LocationFragmentDefinition
      = [ .directiveList 3 (petSchema.Types "Pet") [⟨"d", []⟩] .LocationFragmentDefinition,
          .directive 4 (petSchema.Types "Pet") none ⟨"d", []⟩ .LocationFragmentDefinition ] :=
    rfl
  rw [e3] at ht
  cases before with
  | nil => simp at ht
  | cons x xs =>
    have hl := congrArg List.length ht
    simp at hl

/-- C16, amended: for every fragment definition walked as a root, the
trace of the completed walk is the walk of the fragment's own directives
(Directive-List and Directive callbacks, location
`LocationFragmentDefinition`), then the Fragment callbacks, then the trace
of the fragment's selection set: the directive callbacks of a fragment run
before its children are visited. -/
theorem fragment_directives_before_children (schema : Schema) (doc : QueryDocument)
    (obs : Events κ) (fuel : Nat) (f : FragmentDefinition) (seen : List String)
    (t : List (Event κ)) (seen1 : List String)
    (h : walkFragment schema doc obs fuel f seen = .ok t seen1) :
    ∃ children,
      walkSelections (walkSelection schema doc obs fuel (schema.Types f.TypeCondition))
          f.SelectionSet seen = .ok children seen1
      ∧ t = walkDirectives schema obs (schema.Types f.TypeCondition) f.Directives
            .LocationFragmentDefinition
          ++ obs.fragment.map (fun v => Event.fragment v (schema.Types f.TypeCondition) f)
          ++ children :=
  walkFragment_eq_ok_iff schema doc obs fuel f seen t seen1 h

/-- Witness of C16 (amended) on `fragment F on Pet @d { name }`. -/
theorem fragment_directives_before_children_witness :
    ∃ children,
      walkSelections
          (walkSelection petSchema directiveFragmentDocument recordingObservers 1
            (petSchema.Types directiveFragment.TypeCondition))
          directiveFragment.SelectionSet [] = .ok children []
      ∧ [ Event.directiveList 3 (petSchema.Types "Pet") [⟨"d", []⟩]
            .LocationFragmentDefinition,
          .directive 4 (petSchema.Types "Pet") none ⟨"d", []⟩ .LocationFragmentDefinition,
          .field 0 (petSchema.Types "Pet") (some (.mk "name" [] (.NamedType "String")))
            (.Field "name" [] [] []),
          .directiveList 3 none [] .LocationField ]
        = walkDirectives petSchema recordingObservers
              (petSchema.Types directiveFragment.TypeCondition) directiveFragment.Directives
              .LocationFragmentDefinition
            ++ recordingObservers.fragment.map
                (fun v => Event.fragment v (petSchema.Types directiveFragment.TypeCondition)
                  directiveFragment)
            ++ children :=
  fragment_directives_before_children petSchema directiveFragmentDocument recordingObservers 1
    directiveFragment [] _ [] rfl

/-! ## Values -/

/-- C17: `walkValue` first invokes the Value callbacks with (expected type,
`Schema.Types` of its name if the type is present and absent otherwise, the
value); for an object value it then walks, in order, the value of each
field with the declared type of the definition's field of that name as
expected type, absent when the definition is absent or has no such field;
for the other values nothing follows. -/
theorem walkValue_object_recursion (schema : Schema) (obs : Events κ)
    (valueType : Option GType) :
    (∀ fields : List (String × Value),
      walkValue schema obs valueType (.ObjectValue fields)
        = obs.value.map
            (fun v => Event.value v valueType (valueType.bind fun t => schema.Types t.Name)
              (.ObjectValue fields))
          ++ fields.flatMap fun p =>
              walkValue schema obs
                (((valueType.bind fun t => schema.Types t.Name).bind
                    fun d => d.Field p.1).map fun f => f.Typ)
                p.2) ∧
    (∀ raw, walkValue schema obs valueType (.ScalarValue raw)
        = obs.value.map
            (fun v => Event.value v valueType (valueType.bind fun t => schema.Types t.Name)
              (.ScalarValue raw))) ∧
    (∀ name, walkValue schema obs valueType (.Variable name)
        = obs.value.map
            (fun v => Event.value v valueType (valueType.bind fun t => schema.Types t.Name)
              (.Variable name))) ∧
    (∀ elems, walkValue schema obs valueType (.ListValue elems)
        = obs.value.map
            (fun v => Event.value v valueType (valueType.bind fun t => schema.Types t.Name)
              (.ListValue elems))) ∧
    walkValue petSchema valueObservers (some (.NonNullType (.NamedType "Pet")))
        (.ObjectValue [("name", .ScalarValue "x"), ("unknown", .ScalarValue "y")])
      = [ .value 6 (some (.NonNullType (.NamedType "Pet"))) (petSchema.Types "Pet")
            (.ObjectValue [("name", .ScalarValue "x"), ("unknown", .ScalarValue "y")]),
          .value 6 (some (.NamedType "String")) none (.ScalarValue "x"),
          .value 6 none none (.ScalarValue "y") ] := by
  refine ⟨?_, fun _ => ?_, fun _ => ?_, fun _ => ?_, rfl⟩
  · intro fields
    simp only [walkValue, walkObjectFields_eq]
  · simp only [walkValue]
  · simp only [walkValue]
  · simp only [walkValue]

/-- Counterexample to C18 as stated: in `[{a: 1}]` the value `1` of the
object field `a` gets no Value callback, the walk of a list value being
the callbacks on the list alone. -/
theorem nestedFieldValuesVisited_fails_in_list :
    ¬ NestedFieldValuesVisited emptySchema valueObservers none listOfObjects := by
  intro h
  obtain ⟨t, d, hm⟩ := h (.ScalarValue "1")
    (by simp [listOfObjects, Value.objectFieldValues, Value.objectFieldValuesOfList,
      Value.objectFieldValuesOfFields])
    6 (by simp [valueObservers])
  simp [listOfObjects, walkValue, valueObservers] at hm

mutual
theorem walkValue_reached (schema : Schema) (obs : Events κ) :
    ∀ (valueType : Option GType) (value : Value),
      ∀ x ∈ value.reachedFieldValues, ∀ cb ∈ obs.value,
        ∃ t d, Event.value cb t d x ∈ walkValue schema obs valueType value
  | valueType, .ObjectValue fields => by
    intro x hx cb hcb
    simp only [Value.reachedFieldValues] at hx
    obtain ⟨t, d, h⟩ := walkObjectFields_reached schema obs
      (valueType.bind fun t => schema.Types t.Name) fields x hx cb hcb
    refine ⟨t, d, ?_⟩
    simp only [walkValue]
    exact List.mem_append_right _ h
  | valueType, .ScalarValue raw => by
    intro x hx
    simp [Value.reachedFieldValues] at hx
  | valueType, .Variable name => by
    intro x hx
    simp [Value.reachedFieldValues] at hx
  | valueType, .ListValue elems => by
    intro x hx
    simp [Value.reachedFieldValues] at hx
theorem walkObjectFields_reached (schema : Schema) (obs : Events κ) :
    ∀ (defn : Option Definition) (fields : List (String × Value)),
      ∀ x ∈ Value.reachedFieldValuesOfFields fields, ∀ cb ∈ obs.value,
        ∃ t d, Event.value cb t d x ∈ walkObjectFields schema obs defn fields
  | defn, [] => by
    intro x hx
    simp [Value.reachedFieldValuesOfFields] at hx
  | defn, (name, v) :: rest => by
    intro x hx cb hcb
    simp only [Value.reachedFieldValuesOfFields, List.mem_cons, List.mem_append] at hx
    simp only [walkObjectFields]
    rcases hx with (rfl | hx) | hx
    · obtain ⟨nested, e⟩ := walkValue_head schema obs
        ((defn.bind fun d => d.Field name).map fun f => f.Typ) x
      refine ⟨(defn.bind fun d => d.Field name).map fun f => f.Typ,
        ((defn.bind fun d => d.Field name).map fun f => f.Typ).bind
          fun t => schema.Types t.Name,
        List.mem_append_left _ ?_⟩
      rw [e]
      exact List.mem_append_left _ (List.mem_map.2 ⟨cb, hcb, rfl⟩)
    · obtain ⟨t, d, h⟩ := walkValue_reached schema obs
        ((defn.bind fun d => d.Field name).map fun f => f.Typ) v x hx cb hcb
      exact ⟨t, d, List.mem_append_left _ h⟩
    · obtain ⟨t, d, h⟩ := walkObjectFields_reached schema obs defn rest x hx cb hcb
      exact ⟨t, d, List.mem_append_right _ h⟩
end

/-- C18, amended: every value that is the value of an object field reached
from the walked value through object fields only receives a Value
callback invocation from every registered Value callback, and so does the
walked value itself; the walk of a list value consists of the callbacks on
the list alone, so that what lies inside the elements of a list is not
visited. -/
theorem object_field_values_visited (schema : Schema) (obs : Events κ)
    (valueType : Option GType) (value : Value) (x : Value) (cb : κ)
    (hx : x = value ∨ x ∈ value.reachedFieldValues) (hcb : cb ∈ obs.value) :
    (∃ t d, Event.value cb t d x ∈ walkValue schema obs valueType value)
    ∧ ∀ elems, walkValue schema obs valueType (.ListValue elems)
        = obs.value.map
            (fun v => Event.value v valueType (valueType.bind fun t => schema.Types t.Name)
              (.ListValue elems)) := by
  refine ⟨?_, fun _ => by simp only [walkValue]⟩
  rcases hx with rfl | hx
  · obtain ⟨nested, e⟩ := walkValue_head schema obs valueType x
    refine ⟨valueType, valueType.bind fun t => schema.Types t.Name, ?_⟩
    rw [e]
    exact List.mem_append_left _ (List.mem_map.2 ⟨cb, hcb, rfl⟩)
  · exact walkValue_reached schema obs valueType value x hx cb hcb

/-- Witness of C18 (amended): the value `"y"` of the field `deep` of
`{name: "x", extra: {deep: "y"}}`. -/
theorem object_field_values_visited_witness :
    Value.ScalarValue "y" ∈ nestedObject.reachedFieldValues
      ∧ ∃ t d, Event.value 6 t d (.ScalarValue "y")
          ∈ walkValue petSchema valueObservers (some (.NamedType "Pet")) nestedObject :=
  ⟨by simp [nestedObject, Value.reachedFieldValues, Value.reachedFieldValuesOfFields],
    (object_field_values_visited petSchema valueObservers (some (.NamedType "Pet"))
      nestedObject (.ScalarValue "y") 6
      (Or.inr (by simp [nestedObject, Value.reachedFieldValues,
        Value.reachedFieldValuesOfFields]))
      (by simp [valueObservers])).1⟩

/-! ## Fragment roots -/

theorem Selection.spreadFreeList_iff (sels : List Selection) :
    Selection.SpreadFreeList sels = true ↔ ∀ s ∈ sels, s.SpreadFree = true := by
  induction sels with
  | nil => simp [Selection.SpreadFreeList]
  | cons s rest ih => simp [Selection.SpreadFreeList, ih]

theorem walkSelections_seen_free {walkOne : Selection → List String → Res κ} :
    ∀ sels : List Selection,
      (∀ sel ∈ sels, ∀ seenA t s, walkOne sel seenA = .ok t s →
        s = seenA ∧ ∀ seenB, walkOne sel seenB = .ok t seenB) →
      ∀ seenA t s, walkSelections walkOne sels seenA = .ok t s →
        s = seenA ∧ ∀ seenB, walkSelections walkOne sels seenB = .ok t seenB := by
  intro sels
  induction sels with
  | nil =>
    intro _ seenA t s h
    simp only [walkSelections, Res.ok.injEq] at h
    obtain ⟨rfl, rfl⟩ := h
    exact ⟨rfl, fun _ => rfl⟩
  | cons sel rest ih =>
    intro h1 seenA t s h
    simp only [walkSelections] at h
    obtain ⟨ta, sa, tb, ha, hb, rfl⟩ := Res.andThen_eq_ok h
    obtain ⟨rfl, hA⟩ := h1 sel (List.mem_cons_self _ _) _ _ _ ha
    obtain ⟨rfl, hB⟩ := ih (fun x hx => h1 x (List.mem_cons_of_mem _ hx)) _ _ _ hb
    refine ⟨rfl, fun seenB => ?_⟩
    simp only [walkSelections, hA seenB, Res.andThen_ok, hB seenB, Res.after_ok]

/-- The walk of a selection without fragment spreads neither reads nor
changes the expanded set. -/
theorem walkSelection_seen_free (schema : Schema) (doc : QueryDocument) (obs : Events κ) :
    ∀ fuel parentDef sel, sel.SpreadFree = true → ∀ seenA t s,
      walkSelection schema doc obs fuel parentDef sel seenA = .ok t s →
      s = seenA ∧ ∀ seenB, walkSelection schema doc obs fuel parentDef sel seenB
        = .ok t seenB := by
  intro fuel
  induction fuel with
  | zero => intro parentDef sel _ seenA t s h; simp [walkSelection] at h
  | succ fuel ih =>
    intro parentDef sel hf seenA t s h
    have key : ∀ (sels : List Selection) (next : Option Definition),
        Selection.SpreadFreeList sels = true → ∀ seenA t s,
        walkSelections (walkSelection schema doc obs fuel next) sels seenA = .ok t s →
        s = seenA ∧ ∀ seenB,
          walkSelections (walkSelection schema doc obs fuel next) sels seenB = .ok t seenB :=
      fun sels next hs =>
        walkSelections_seen_free sels
          (fun x hx => ih next x ((Selection.spreadFreeList_iff sels).1 hs x hx))
    cases sel with
    | Field name arguments directives selectionSet =>
      simp only [walkSelection] at h ⊢
      obtain ⟨ta, sa, tb, ha, hb, rfl⟩ := Res.andThen_eq_ok h
      obtain ⟨tc, hc, rfl⟩ := Res.after_eq_ok ha
      simp only [Res.ok.injEq] at hb
      obtain ⟨rfl, rfl⟩ := hb
      obtain ⟨rfl, hB⟩ := key _ _ (by simpa [Selection.SpreadFree] using hf) _ _ _ hc
      refine ⟨rfl, fun seenB => ?_⟩
      simp only [hB seenB, Res.after_ok, Res.andThen_ok]
    | InlineFragment typeCondition directives selectionSet =>
      simp only [walkSelection] at h ⊢
      obtain ⟨tc, hc, rfl⟩ := Res.after_eq_ok h
      obtain ⟨rfl, hB⟩ := key _ _ (by simpa [Selection.SpreadFree] using hf) _ _ _ hc
      refine ⟨rfl, fun seenB => ?_⟩
      simp only [hB seenB, Res.after_ok]
    | FragmentSpread name directives => simp [Selection.SpreadFree] at hf
    | Unsupported => simp [walkSelection] at h

theorem walkSelection_spread_marks (schema : Schema) (doc : QueryDocument) (obs : Events κ)
    (fuel : Nat) (parentDef : Option Definition) (name : String) (directives : List Directive)
    (d : FragmentDefinition) (hd : doc.GetFragment name = some d) (seen : List String)
    (t : List (Event κ)) (seen1 : List String)
    (h : walkSelection schema doc obs fuel parentDef (.FragmentSpread name directives) seen
      = .ok t seen1) : d.Name ∈ seen1 := by
  cases fuel with
  | zero => simp [walkSelection] at h
  | succ fuel =>
    by_cases hm : d.Name ∈ seen
    · exact (walkSelection_grows schema doc obs _ _ _ _ _ _ h).mem hm
    · rw [walkSelection_spread_descend schema doc obs fuel parentDef name directives seen d
        hd hm] at h
      obtain ⟨tc, hc, -⟩ := Res.after_eq_ok h
      exact (walkSelections_grows (walkSelection_grows schema doc obs fuel _) _ _ _ _ hc).mem
        (List.mem_cons_self _ _)

theorem walkSelections_marks {walkOne : Selection → List String → Res κ} {n : String}
    (hg : ∀ sel seen t seen1, walkOne sel seen = .ok t seen1 → Grows seen seen1) :
    ∀ sels : List Selection,
      (∃ sel ∈ sels, ∀ seen t seen1, walkOne sel seen = .ok t seen1 → n ∈ seen1) →
      ∀ seen t seen1, walkSelections walkOne sels seen = .ok t seen1 → n ∈ seen1 := by
  intro sels
  induction sels with
  | nil => intro h; obtain ⟨sel, hm, -⟩ := h; simp at hm
  | cons a rest ih =>
    intro h seen t seen1 hw
    obtain ⟨sel, hm, hs⟩ := h
    simp only [walkSelections] at hw
    obtain ⟨ta, sa, tb, ha, hb, -⟩ := Res.andThen_eq_ok hw
    rcases List.mem_cons.1 hm with rfl | hr
    · exact (walkSelections_grows hg _ _ _ _ hb).mem (hs _ _ _ ha)
    · exact ih ⟨sel, hr, hs⟩ _ _ _ hb

/-- C19: `walkFragment` walks the selection set of the fragment from the
expanded set it is given, without adding the fragment's own name; when the
fragment `F` resolves to itself and spreads itself directly, a completed
root traversal of `F` has marked `F` exactly once, that is, it has
descended into `F` once, so the selection set of `F` is walked twice; when
the self-spread comes last and the selections before it hold no fragment
spread, the trace is those selections, the spread's callbacks, those
selections once more and the spread's callbacks once more without a
further descent. -/
theorem fragment_root_not_marked (schema : Schema) (doc : QueryDocument) (obs : Events κ) :
    (∀ fuel (f : FragmentDefinition) seen,
      walkFragment schema doc obs fuel f seen
        = (walkSelections (walkSelection schema doc obs fuel (schema.Types f.TypeCondition))
            f.SelectionSet seen).after
          (walkDirectives schema obs (schema.Types f.TypeCondition) f.Directives
              .LocationFragmentDefinition
            ++ obs.fragment.map
                (fun v => Event.fragment v (schema.Types f.TypeCondition) f))) ∧
    (∀ fuel (f : FragmentDefinition) directives t seen1,
      doc.GetFragment f.Name = some f →
      Selection.FragmentSpread f.Name directives ∈ f.SelectionSet →
      walkFragment schema doc obs fuel f [] = .ok t seen1 →
      seen1.count f.Name = 1) ∧
    (∀ fuel (f : FragmentDefinition) directives (before : List Selection) children seen1,
      doc.GetFragment f.Name = some f →
      f.SelectionSet = before ++ [.FragmentSpread f.Name directives] →
      Selection.SpreadFreeList before = true →
      walkSelections (walkSelection schema doc obs (fuel + 1) (schema.Types f.TypeCondition))
        before [] = .ok children seen1 →
      walkFragment schema doc obs (fuel + 2) f []
        = .ok
          (walkDirectives schema obs (schema.Types f.TypeCondition) f.Directives
              .LocationFragmentDefinition
            ++ obs.fragment.map (fun v => Event.fragment v (schema.Types f.TypeCondition) f)
            ++ (children
              ++ ((obs.fragmentSpread.map
                    (fun v => Event.fragmentSpread v (schema.Types f.TypeCondition) (some f)
                      (.FragmentSpread f.Name directives))
                  ++ walkDirectives schema obs (schema.Types f.TypeCondition) directives
                      .LocationFragmentSpread)
                ++ (children
                  ++ (obs.fragmentSpread.map
                      (fun v => Event.fragmentSpread v (schema.Types f.TypeCondition) (some f)
                        (.FragmentSpread f.Name directives))
                    ++ walkDirectives schema obs (schema.Types f.TypeCondition) directives
                        .LocationFragmentSpread)))))
          [f.Name]) := by
  refine ⟨fun _ _ _ => rfl, ?_, ?_⟩
  · intro fuel f directives t seen1 hd hm h
    have hg := walkFragment_grows schema doc obs fuel f [] t seen1 h
    simp only [walkFragment] at h
    obtain ⟨tc, hc, -⟩ := Res.after_eq_ok h
    have hmem : f.Name ∈ seen1 :=
      walkSelections_marks (walkSelection_grows schema doc obs fuel _) f.SelectionSet
        ⟨_, hm, fun seen t s hw =>
          walkSelection_spread_marks schema doc obs fuel _ f.Name directives f hd seen t s hw⟩
        _ _ _ hc
    exact List.count_eq_one_of_mem (hg.2 List.nodup_nil) hmem
  · intro fuel f directives before children seen1 hd hsel hfree hw
    have hfreeOne := fun (x : Selection) (hx : x ∈ before) =>
      walkSelection_seen_free schema doc obs (fuel + 1) (schema.Types f.TypeCondition) x
        ((Selection.spreadFreeList_iff before).1 hfree x hx)
    obtain ⟨rfl, hB⟩ := walkSelections_seen_free before hfreeOne _ _ _ hw
    have hup : walkSelections
        (walkSelection schema doc obs (fuel + 2) (schema.Types f.TypeCondition)) before []
        = .ok children [] := by
      rw [walkSelections_walkSelection_fuel_le schema doc obs (Nat.le_succ (fuel + 1)) _ _ _
        (by rw [hw]; simp), hw]
    have hexp := walkSelection_spread_expanded schema doc obs fuel
      (schema.Types f.TypeCondition) f.Name directives [f.Name]
      (Or.inr ⟨f, hd, List.mem_singleton_self _⟩)
    rw [hd] at hexp
    have hinner : walkSelections
        (walkSelection schema doc obs (fuel + 1) (schema.Types f.TypeCondition))
        f.SelectionSet [f.Name]
        = .ok (children
            ++ (obs.fragmentSpread.map
                (fun v => Event.fragmentSpread v (schema.Types f.TypeCondition) (some f)
                  (.FragmentSpread f.Name directives))
              ++ walkDirectives schema obs (schema.Types f.TypeCondition) directives
                  .LocationFragmentSpread)) [f.Name] := by
      rw [hsel, walkSelections_append, hB [f.Name]]
      simp only [Res.andThen_ok, walkSelections, hexp, Res.after_ok, List.append_nil,
        Option.some_bind]
    have hdesc := walkSelection_spread_descend schema doc obs (fuel + 1)
      (schema.Types f.TypeCondition) f.Name directives [] f hd (by simp)
    rw [hinner] at hdesc
    simp only [walkFragment]
    rw [hsel, walkSelections_append, hup]
    simp only [Res.andThen_ok, walkSelections, hdesc, Res.after_ok, List.append_nil]

/-- Witness of C19: the root traversal of `fragment F on Pet { name ...F }`;
the Field callback on `name` runs twice and the second `...F` does not
descend. -/
theorem fragment_root_not_marked_witness :
    walkFragment petSchema selfSpreadDocument selectionObservers 2 selfSpreadFragment []
      = .ok
        [ .field 0 (petSchema.Types "Pet") (some (.mk "name" [] (.NamedType "String")))
            (.Field "name" [] [] []),
          .fragmentSpread 1 (petSchema.Types "Pet") (some selfSpreadFragment)
            (.FragmentSpread "F" []),
          .field 0 (petSchema.Types "Pet") (some (.mk "name" [] (.NamedType "String")))
            (.Field "name" [] [] []),
          .fragmentSpread 1 (petSchema.Types "Pet") (some selfSpreadFragment)
            (.FragmentSpread "F" []) ]
        ["F"] :=
  (fragment_root_not_marked petSchema selfSpreadDocument selectionObservers).2.2 0
    selfSpreadFragment []
    [.Field "name" [] [] []]
    [ .field 0 (petSchema.Types "Pet") (some (.mk "name" [] (.NamedType "String")))
        (.Field "name" [] [] []) ]
    [] rfl rfl rfl rfl

/-! ## The rule `LoneAnonymousOperation` -/

theorem DispatchedBy.eq_nil {o : Events κ} {kinds : List Kind} {t : List (Event κ)}
    (h : DispatchedBy o kinds t) (hs : ∀ k ∈ kinds, o.slot k = []) : t = [] := by
  obtain ⟨nodes, hk, rfl⟩ := h
  induction nodes with
  | nil => rfl
  | cons n rest ih =>
    rw [List.flatMap_cons, ih fun m hm => hk m (List.mem_cons_of_mem _ hm)]
    simp [Events.dispatch, hs _ (hk n (List.mem_cons_self _ _))]

theorem walkSelections_dispatched (schema : Schema) (doc : QueryDocument) (obs : Events κ)
    (fuel : Nat) (next : Option Definition) (sels : List Selection) (seen : List String) :
    DispatchedBy obs selectionKinds
      (walkSelections (walkSelection schema doc obs fuel next) sels seen).trace :=
  walkSelections_trace (DispatchedBy.nil obs _) (fun _ _ ha hb => ha.append hb)
    (walkSelection_dispatched schema doc obs fuel next) sels seen

theorem walkOperation_trace_only_operation (schema : Schema) (doc : QueryDocument)
    (obs : Events κ) (fuel : Nat) (o : OperationDefinition) (seen : List String)
    (t : List (Event κ)) (seen1 : List String)
    (hs : ∀ k ∈ operationBodyKinds, obs.slot k = [])
    (h : walkOperation schema doc obs fuel o seen = .ok t seen1) :
    t = obs.operationVisitor.map (fun v => Event.operation v o)
      ++ obs.operationLeaveVisitor.map (fun v => Event.operationLeave v o) := by
  simp only [walkOperation] at h
  obtain ⟨ta, sa, tb, ha, hb, e⟩ := Res.andThen_eq_ok h
  obtain ⟨tc, hc, e1⟩ := Res.after_eq_ok ha
  simp only [Res.ok.injEq] at hb
  have hbody : DispatchedBy obs operationBodyKinds tc := by
    have := walkSelections_dispatched schema doc obs fuel
      (operationRoot schema o.Operation).1 o.SelectionSet seen
    rw [hc] at this
    exact DispatchedBy.mono (by simp [selectionKinds, operationBodyKinds]) this
  have hdirs := ((walkDirectives_dispatched schema obs (operationRoot schema o.Operation).1
    o.Directives (operationRoot schema o.Operation).2).mono
      (by simp [directiveKinds, operationBodyKinds])).eq_nil hs
  have hvars := ((walkVariableDefinitions_dispatched schema obs o.VariableDefinitions).mono
      (by simp [operationBodyKinds])).eq_nil hs
  rw [e, e1, ← hb.1, hdirs, hvars, hbody.eq_nil hs]
  simp

theorem walkFragment_trace_nil (schema : Schema) (doc : QueryDocument)
    (obs : Events κ) (fuel : Nat) (f : FragmentDefinition) (seen : List String)
    (hs : ∀ k ∈ fragmentKinds, obs.slot k = []) :
    (walkFragment schema doc obs fuel f seen).trace = [] := by
  have hnil := DispatchedBy.nil obs fragmentKinds
  have happ : ∀ a b : List (Event κ), DispatchedBy obs fragmentKinds a →
      DispatchedBy obs fragmentKinds b → DispatchedBy obs fragmentKinds (a ++ b) :=
    fun _ _ ha hb => ha.append hb
  have hd : DispatchedBy obs fragmentKinds (walkFragment schema doc obs fuel f seen).trace := by
    simp only [walkFragment]
    refine Res.trace_after hnil happ (happ _ _ ?_ ?_) ?_
    · exact (walkDirectives_dispatched schema obs _ _ _).mono
        (by simp [directiveKinds, fragmentKinds])
    · exact DispatchedBy.node obs (Event.fragment () (schema.Types f.TypeCondition) f)
        (by simp [Event.kind, fragmentKinds])
    · exact (walkSelections_dispatched schema doc obs fuel _ _ _).mono
        (by simp [selectionKinds, fragmentKinds])
  exact hd.eq_nil hs

theorem loneAnonymousOperation_errors_length (document : QueryDocument)
    (ops : List OperationDefinition) :
    (ops.flatMap fun o => loneAnonymousOperation document o).length
      = if document.Operations.length > 1 then
          (ops.filter fun o => decide (o.Name = "")).length
        else 0 := by
  induction ops with
  | nil => simp
  | cons o rest ih =>
    rw [List.flatMap_cons, List.length_append, ih]
    by_cases hl : document.Operations.length > 1
    · by_cases hn : o.Name = ""
      · simp [loneAnonymousOperation, hl, hn]
        omega
      · simp [loneAnonymousOperation, hl, hn]
    · simp [loneAnonymousOperation, hl]

/-- C20: with only the rule `LoneAnonymousOperation` registered, on every
schema and every document of supported selections the trace of `Walk` is
one invocation of the rule's callback per operation, and the number of
errors added is the number of operations with an empty name when the
document has more than one operation and zero otherwise; on a named
operation the callback adds no error. -/
theorem loneAnonymousOperation_error_count (schema : Schema) (doc : QueryDocument)
    (hs : doc.Supported = true) :
    (Walk schema doc (LoneAnonymousOperation {})).trace
      = doc.Operations.map (fun o => Event.operation loneAnonymousOperation o)
    ∧ (addedErrors doc (Walk schema doc (LoneAnonymousOperation {})).trace).length
      = (if doc.Operations.length > 1 then
          (doc.Operations.filter fun o => decide (o.Name = "")).length
        else 0)
    ∧ ∀ (document : QueryDocument) (o : OperationDefinition), o.Name ≠ "" →
        loneAnonymousOperation document o = [] := by
  have hslot : ∀ k, k ≠ Kind.operation →
      (LoneAnonymousOperation ({} : Events OperationCallback)).slot k = [] := by
    intro k hk
    cases k <;> first | rfl | exact absurd rfl hk
  have htrace : (Walk schema doc (LoneAnonymousOperation {})).trace
      = doc.Operations.map (fun o => Event.operation loneAnonymousOperation o) := by
    obtain ⟨seen, e⟩ := Walk_eq_ok schema doc (LoneAnonymousOperation {}) hs
    rw [e]
    have hops : ∀ l : List OperationDefinition, (∀ o ∈ l, o ∈ doc.Operations) →
        (l.flatMap fun o =>
          (walkOperation schema doc (LoneAnonymousOperation {}) doc.fuel o []).trace)
        = l.map (fun o => Event.operation loneAnonymousOperation o) := by
      intro l
      induction l with
      | nil => intro _; rfl
      | cons o rest ih =>
        intro hm
        obtain ⟨⟨t, s, e1⟩, -⟩ := walkOperation_eq_ok schema doc (LoneAnonymousOperation {})
          hs le_rfl (hm o (List.mem_cons_self _ _))
        have e2 := walkOperation_trace_only_operation schema doc (LoneAnonymousOperation {})
          doc.fuel o [] t s (fun k hk => hslot k (by
            intro hc; rw [hc] at hk; simp [operationBodyKinds] at hk)) e1
        rw [List.flatMap_cons, ih fun x hx => hm x (List.mem_cons_of_mem _ hx), e1, e2]
        rfl
    have hfrags : ∀ l : List FragmentDefinition,
        (l.flatMap fun f =>
          (walkFragment schema doc (LoneAnonymousOperation {}) doc.fuel f []).trace) = [] := by
      intro l
      induction l with
      | nil => rfl
      | cons f rest ih =>
        rw [List.flatMap_cons, ih,
          walkFragment_trace_nil schema doc (LoneAnonymousOperation {}) doc.fuel f []
            (fun k hk => hslot k (by
              intro hc; rw [hc] at hk; simp [fragmentKinds] at hk))]
        rfl
    show (doc.Operations.flatMap fun o =>
          (walkOperation schema doc (LoneAnonymousOperation {}) doc.fuel o []).trace)
        ++ (doc.Fragments.flatMap fun f =>
          (walkFragment schema doc (LoneAnonymousOperation {}) doc.fuel f []).trace)
      = doc.Operations.map (fun o => Event.operation loneAnonymousOperation o)
    rw [hops doc.Operations (fun _ h => h), hfrags, List.append_nil]
  refine ⟨htrace, ?_, ?_⟩
  · rw [htrace, ← loneAnonymousOperation_errors_length doc doc.Operations]
    simp only [addedErrors, List.flatMap_map]
    rfl
  · intro document o hn
    simp [loneAnonymousOperation, hn]

/-- Witness of C20: two anonymous operations and a named one give two
errors. -/
theorem loneAnonymousOperation_error_count_witness :
    threeOperationsDocument.Supported = true
      ∧ (addedErrors threeOperationsDocument
          (Walk petSchema threeOperationsDocument (LoneAnonymousOperation {})).trace).length
        = 2 :=
  ⟨rfl, (loneAnonymousOperation_error_count petSchema threeOperationsDocument rfl).2.1⟩

end validator
